import Mathlib

/-!
Verification development for the data-standardization library
(fuzzy similarity metrics, case conversion, key transformation,
phone normalization/parsing, name/username/address parsing, and the
fuzzy-deduplication engine of src/nodes/DataCleaner/utils.ts, plus the
host-side validation of the deduplicate-fuzzy operation).

Strings are modelled as Lean `String`/`List Char` (JavaScript UTF-16
units restricted to scalar values), JavaScript numbers appearing in the
similarity computations as exact rationals, and dynamically typed record
values as an explicit variant type.  All definitions are executable.
-/

/-! ## JavaScript-flavoured character and string helpers -/

/-- The character class matched by the JavaScript regex `\s`
(restricted to the code points the repository can encounter). -/
def jsIsWhitespace (c : Char) : Bool :=
  c = ' ' ∨ c = '\t' ∨ c = '\n' ∨ c = '\r' ∨
  c = '\x0b' ∨ c = '\x0c' ∨ c = '\u00A0'

/-- JavaScript `String.prototype.trim` on a character list. -/
def jsTrimList (l : List Char) : List Char :=
  ((l.dropWhile jsIsWhitespace).reverse.dropWhile jsIsWhitespace).reverse

/-- JavaScript `String.prototype.trim`. -/
def jsTrim (s : String) : String :=
  String.mk (jsTrimList s.toList)

/-- ASCII lower-casing of a character list (JavaScript `toLowerCase`
restricted to ASCII, the only case-carrying characters the algorithms
treat specially). -/
def lowerList (l : List Char) : List Char :=
  l.map Char.toLower

/-- ASCII upper-casing of a character list. -/
def upperList (l : List Char) : List Char :=
  l.map Char.toUpper

/-- `str.toLowerCase().trim()`, the normalization shared by the
similarity metrics. -/
def normFold (s : String) : List Char :=
  jsTrimList (lowerList s.toList)

/-- Characters kept by the regex `\d` / `String#replace(/\D/g, '')`. -/
def digitList (s : String) : List Char :=
  s.toList.filter Char.isDigit

/-- Word characters for the JavaScript regex `\b` boundary (`[A-Za-z0-9_]`). -/
def jsIsWordChar (c : Char) : Bool :=
  c.isAlpha ∨ c.isDigit ∨ c = '_'

/-- Case-insensitive character equality (ASCII). -/
def charEqCI (a b : Char) : Bool :=
  a.toLower = b.toLower

/-- Case-insensitive prefix test on character lists. -/
def isPrefixCI : List Char → List Char → Bool
  | [], _ => true
  | _ :: _, [] => false
  | p :: ps, c :: cs => charEqCI p c ∧ isPrefixCI ps cs

/-! ## SimilarityEngine: Levenshtein distance and similarity -/

/-- Inner loop of the single-row Levenshtein dynamic program: given the
character `c` of the longer string, the remaining characters of the
shorter string, the tail of the previous row, the previous row's
diagonal entry and the entry just computed to the left, produce the rest
of the current row. -/
def levRow (c : Char) : List Char → List Nat → Nat → Nat → List Nat
  | [], _, _, _ => []
  | _ :: _, [], _, _ => []
  | s :: ss, pUp :: pRest, pDiag, left =>
      let cost := if c = s then 0 else 1
      let cur := min (min (left + 1) (pUp + 1)) (pDiag + cost)
      cur :: levRow c ss pRest pUp cur

/-- Outer loop of the Levenshtein dynamic program over the longer
string, threading the previous row. -/
def levLoop (shorter : List Char) : List Char → Nat → List Nat → List Nat
  | [], _, prev => prev
  | c :: cs, i, prev =>
      levLoop shorter cs (i + 1) (i :: levRow c shorter prev.tail (prev.headD 0) i)

/-- `levenshteinDistance` of utils.ts: normalizes both inputs, early
exits on equality/emptiness, then runs the space-optimized dynamic
program with the shorter string indexing the row. -/
def levenshteinDistance (str1 str2 : String) : Nat :=
  let s1 := normFold str1
  let s2 := normFold str2
  if s1 = s2 then 0
  else if s1.length = 0 then s2.length
  else if s2.length = 0 then s1.length
  else
    let p := if s1.length ≤ s2.length then (s1, s2) else (s2, s1)
    (levLoop p.1 p.2 1 (List.range (p.1.length + 1))).getLastD 0

/-- `levenshteinSimilarity` of utils.ts: `1 - distance / max length`
with the empty-string early exits (JavaScript `!str` tests). -/
def levenshteinSimilarity (str1 str2 : String) : ℚ :=
  if str1 = "" ∧ str2 = "" then 1
  else if str1 = "" ∨ str2 = "" then 0
  else
    let distance := levenshteinDistance str1 str2
    let maxLength := max str1.length str2.length
    if maxLength = 0 then 1 else 1 - (distance : ℚ) / (maxLength : ℚ)

/-! ## SimilarityEngine: Jaro and Jaro-Winkler similarity -/

/-- One step of the Jaro match search: the first index `j` in
`[start, stop)` whose character equals `c` and is not yet matched
(`s2Matches[j] || s1[i] !== s2[j]` in the source). -/
def jaroFind (s2 : List Char) (m2 : List Bool) (c : Char) (start stop : Nat) : Option Nat :=
  (List.range' start (stop - start)).find?
    (fun j => m2.getD j true = false ∧ s2.getD j c = c)

/-- The Jaro matching loop: walks the first string with index `i`,
marking matched positions of the second string; returns the match flags
of both strings. -/
def jaroMatch (s2 : List Char) (w : Nat) : List Char → Nat → List Bool → List Bool × List Bool
  | [], _, m2 => ([], m2)
  | c :: cs, i, m2 =>
      match jaroFind s2 m2 c (i - w) (min (i + w + 1) s2.length) with
      | some j =>
          let r := jaroMatch s2 w cs (i + 1) (m2.set j true)
          (true :: r.1, r.2)
      | none =>
          let r := jaroMatch s2 w cs (i + 1) m2
          (false :: r.1, r.2)

/-- The Jaro transposition loop: advances through the matched positions
of both strings in order and counts character mismatches. -/
def jaroTranspositions : List (Char × Bool) → List (Char × Bool) → Nat
  | [], _ => 0
  | (c1, b1) :: r1, l2 =>
      if b1 then
        match l2.dropWhile (fun p => p.2 = false) with
        | [] => jaroTranspositions r1 []
        | (c2, _) :: r2 => (if c1 = c2 then 0 else 1) + jaroTranspositions r1 r2
      else jaroTranspositions r1 l2

/-- Count of `true` flags. -/
def countTrue (l : List Bool) : Nat :=
  (l.filter (· = true)).length

/-- `jaroSimilarity` of utils.ts: identical normalized strings give 1,
an empty side gives 0, otherwise matched characters within the window
`max 0 (floor (max |a| |b| / 2) - 1)` and transposition-corrected
three-way average. -/
def jaroSimilarity (str1 str2 : String) : ℚ :=
  let s1 := normFold str1
  let s2 := normFold str2
  if s1 = s2 then 1
  else if s1.length = 0 ∨ s2.length = 0 then 0
  else
    let w := max s1.length s2.length / 2 - 1
    let r := jaroMatch s2 w s1 0 (List.replicate s2.length false)
    let m := countTrue r.1
    if m = 0 then 0
    else
      let t := jaroTranspositions (s1.zip r.1) (s2.zip r.2)
      ((m : ℚ) / s1.length + (m : ℚ) / s2.length + ((m : ℚ) - (t : ℚ) / 2) / m) / 3

/-- Common-prefix scan of `jaroWinklerSimilarity`, capped by the fuel
argument (4 in the source). -/
def jaroPrefixLen : List Char → List Char → Nat → Nat
  | a :: r1, b :: r2, k + 1 => if a = b then 1 + jaroPrefixLen r1 r2 k else 0
  | _, _, _ => 0

/-- `jaroWinklerSimilarity` with an explicit prefix-scale argument. -/
def jaroWinklerSimilarityWith (str1 str2 : String) (prefixScale : ℚ) : ℚ :=
  let jaroSim := jaroSimilarity str1 str2
  if jaroSim = 0 then 0
  else
    let s1 := normFold str1
    let s2 := normFold str2
    let prefixLength := jaroPrefixLen s1 s2 4
    let boundedScale := min prefixScale (1 / 4)
    jaroSim + (prefixLength : ℚ) * boundedScale * (1 - jaroSim)

/-- `jaroWinklerSimilarity` at the default prefix scale 0.1. -/
def jaroWinklerSimilarity (str1 str2 : String) : ℚ :=
  jaroWinklerSimilarityWith str1 str2 (1 / 10)

/-- `fuzzyMatch` of utils.ts: Jaro-Winkler when both strings are shorter
than 10 characters, Levenshtein similarity otherwise. -/
def fuzzyMatch (str1 str2 : String) : ℚ :=
  if str1.length < 10 ∧ str2.length < 10 then
    jaroWinklerSimilarity str1 str2
  else
    levenshteinSimilarity str1 str2

/-- Length bound used by the termination arguments of the run-collapsing
scanners. -/
theorem length_dropWhile_le {p : Char → Bool} (l : List Char) :
    (l.dropWhile p).length ≤ l.length :=
  (List.dropWhile_sublist p).length_le

/-! ## CaseConverter: title case -/

/-- Lowercase exceptions of `toTitleCase` (articles, prepositions,
conjunctions). -/
def titleLowerExceptions : List String :=
  ["a", "an", "the", "and", "but", "or", "for", "nor", "so", "yet",
   "at", "by", "in", "of", "on", "to", "up", "as", "is", "it"]

/-- Uppercase exceptions of `toTitleCase` (acronyms etc.). -/
def titleUpperExceptions : List String :=
  ["usa", "uk", "uae", "nyc", "la", "dc", "ibm", "nasa", "fbi", "cia",
   "ceo", "cfo", "cto", "coo", "vp", "svp", "evp", "md", "phd", "llc",
   "inc", "ltd", "ii", "iii", "iv", "vi", "vii", "viii", "ix", "xi"]

/-- `split(/(\s+)/)`: split on whitespace runs, keeping each run as its
own element (JavaScript split with a captured separator group). -/
def splitWsKeepAux : List Char → List Char → List (List Char)
  | [], cur => [cur.reverse]
  | c :: rest, cur =>
      if jsIsWhitespace c then
        cur.reverse :: (c :: rest.takeWhile jsIsWhitespace) ::
          splitWsKeepAux (rest.dropWhile jsIsWhitespace) []
      else
        splitWsKeepAux rest (c :: cur)
termination_by l _ => l.length
decreasing_by
  all_goals simp_wf
  all_goals exact Nat.lt_succ_of_le (length_dropWhile_le _)

/-- `split(/(\s+)/)` on a character list. -/
def splitWsKeep (l : List Char) : List (List Char) :=
  splitWsKeepAux l []

/-- `word.charAt(0).toUpperCase() + word.slice(1).toLowerCase()`. -/
def capitalizeWordLower : List Char → List Char
  | [] => []
  | c :: r => c.toUpper :: lowerList r

/-- Per-token transformation of `toTitleCase`; `idx` is the token's
position in the split array and `n` the array's length. -/
def titleWord (idx n : Nat) (word : List Char) : List Char :=
  if word ≠ [] ∧ word.all jsIsWhitespace then word
  else
    let lowerWord := lowerList word
    if titleUpperExceptions.contains (String.mk lowerWord) then upperList word
    else if ¬(idx = 0 ∨ idx = n - 1) ∧ titleLowerExceptions.contains (String.mk lowerWord) then
      lowerWord
    else capitalizeWordLower word

/-- `toTitleCase` of utils.ts. -/
def toTitleCase (s : String) : String :=
  if s = "" then "" else
  let groups := splitWsKeep (lowerList s.toList)
  String.mk ((groups.enum.map (fun p => titleWord p.1 groups.length p.2)).flatten)

/-! ## CaseConverter: snake_case and camelCase -/

/-- `replace(/([a-z])([A-Z])/g, '$1_$2')`: insert an underscore between
each adjacent lowercase-uppercase pair. -/
def insertLowerUpper : List Char → List Char
  | a :: b :: rest =>
      if a.isLower ∧ b.isUpper then a :: '_' :: insertLowerUpper (b :: rest)
      else a :: insertLowerUpper (b :: rest)
  | l => l

/-- `replace(/([A-Z]+)([A-Z][a-z])/g, '$1_$2')`: insert an underscore
before an uppercase letter that follows an uppercase letter and precedes
a lowercase letter. -/
def insertCapsBoundary : List Char → List Char
  | a :: b :: c :: rest =>
      if a.isUpper ∧ b.isUpper ∧ c.isLower then
        a :: '_' :: insertCapsBoundary (b :: c :: rest)
      else a :: insertCapsBoundary (b :: c :: rest)
  | l => l

/-- The separator class `[\s\-.]` of `toSnakeCase`. -/
def isSnakeSep (c : Char) : Bool :=
  jsIsWhitespace c ∨ c = '-' ∨ c = '.'

/-- `replace(/[\s\-.]+/g, '_')`: each separator run becomes one underscore. -/
def replaceSepRuns : List Char → List Char
  | [] => []
  | c :: rest =>
      if isSnakeSep c then '_' :: replaceSepRuns (rest.dropWhile isSnakeSep)
      else c :: replaceSepRuns rest
termination_by l => l.length
decreasing_by
  all_goals simp_wf
  all_goals exact Nat.lt_succ_of_le (length_dropWhile_le _)

/-- Characters kept by `replace(/[^a-zA-Z0-9_]/g, '')`. -/
def isSnakeKeep (c : Char) : Bool :=
  c.isAlpha ∨ c.isDigit ∨ c = '_'

/-- `replace(/^_+|_+$/g, '')`: strip the leading and trailing underscore runs. -/
def trimUnderscores (l : List Char) : List Char :=
  ((l.dropWhile (· = '_')).reverse.dropWhile (· = '_')).reverse

/-- `replace(/_+/g, '_')`: collapse underscore runs. -/
def collapseUnderscores : List Char → List Char
  | [] => []
  | c :: rest =>
      if c = '_' then '_' :: collapseUnderscores (rest.dropWhile (· = '_'))
      else c :: collapseUnderscores rest
termination_by l => l.length
decreasing_by
  all_goals simp_wf
  all_goals exact Nat.lt_succ_of_le (length_dropWhile_le _)

/-- `toSnakeCase` of utils.ts: case-boundary underscores, separator
replacement, junk removal, lowering, trimming and collapsing. -/
def toSnakeCase (s : String) : String :=
  if s = "" then "" else
  String.mk (collapseUnderscores (trimUnderscores (lowerList
    ((replaceSepRuns (insertCapsBoundary (insertLowerUpper s.toList))).filter isSnakeKeep))))

/-- The separator class `[_\-.\s]` of `toCamelCase`. -/
def isCamelSep (c : Char) : Bool :=
  c = '_' ∨ c = '-' ∨ c = '.' ∨ jsIsWhitespace c

/-- `replace(/[_\-.\s]+/g, ' ')`: each separator run becomes one space. -/
def sepRunsToSpace : List Char → List Char
  | [] => []
  | c :: rest =>
      if isCamelSep c then ' ' :: sepRunsToSpace (rest.dropWhile isCamelSep)
      else c :: sepRunsToSpace rest
termination_by l => l.length
decreasing_by
  all_goals simp_wf
  all_goals exact Nat.lt_succ_of_le (length_dropWhile_le _)

/-- JavaScript `split` on a single-character separator. -/
def splitOnCharAux (sep : Char) : List Char → List Char → List (List Char)
  | [], cur => [cur.reverse]
  | c :: rest, cur =>
      if c = sep then cur.reverse :: splitOnCharAux sep rest []
      else splitOnCharAux sep rest (c :: cur)

/-- JavaScript `split` on a single-character separator. -/
def splitOnChar (sep : Char) (l : List Char) : List (List Char) :=
  splitOnCharAux sep l []

/-- `split(' ')` on a character list. -/
def splitOnSpace (l : List Char) : List (List Char) :=
  splitOnChar ' ' l

/-- `word.charAt(0).toUpperCase() + word.slice(1)`. -/
def capitalizeFirst : List Char → List Char
  | [] => []
  | c :: r => c.toUpper :: r

/-- The word-joining step of `toCamelCase`: first word unchanged,
subsequent words with their first character uppercased. -/
def camelJoin : List (List Char) → List Char
  | [] => []
  | w :: ws => w ++ (ws.map capitalizeFirst).flatten

/-- `toCamelCase` of utils.ts. -/
def toCamelCase (s : String) : String :=
  if s = "" then "" else
  String.mk (camelJoin ((splitOnSpace (lowerList (jsTrimList (sepRunsToSpace s.toList)))).filter (· ≠ [])))

/-! ## PhoneNormalizer -/

/-- `phone.trim().startsWith('+')`. -/
def jsHasPlus (s : String) : Bool :=
  match jsTrimList s.toList with
  | '+' :: _ => true
  | _ => false

/-- `cleanPhoneNumber` of utils.ts: strips non-digits and classifies by
digit count and leading digits, producing an E.164-style string or the
original input. -/
def cleanPhoneNumber (phone : String) (defaultCountryCode : String) : String :=
  if phone = "" then "" else
  let hasPlus := jsHasPlus phone
  let dl := digitList phone
  if dl.length = 0 then phone
  else if 15 < dl.length then phone
  else if hasPlus then String.mk ('+' :: dl)
  else if dl.length = 11 ∧ dl.headD ' ' = '1' then String.mk ('+' :: dl)
  else if dl.length = 10 then String.mk ('+' :: (defaultCountryCode.toList ++ dl))
  else if dl.length = 11 ∧ dl.headD ' ' = '0' then String.mk ('+' :: '4' :: '4' :: dl.drop 1)
  else if dl.length = 12 ∧ dl.take 2 = ['4', '4'] then String.mk ('+' :: dl)
  else if 7 ≤ dl.length ∧ dl.length ≤ 10 then String.mk ('+' :: (defaultCountryCode.toList ++ dl))
  else String.mk ('+' :: dl)

/-- The E.164 validation regex `^\+[1-9]\d{1,14}$` of `isValidE164`. -/
def isValidE164 (phone : String) : Bool :=
  match phone.toList with
  | '+' :: c :: rest =>
      ('1' ≤ c ∧ c ≤ '9') ∧ rest.all Char.isDigit ∧ 1 ≤ rest.length ∧ rest.length ≤ 14
  | _ => false

/-! ## Record values and the Deduplicator -/

/-- Dynamically typed JavaScript values as they reach the library:
strings, numbers, booleans, `null` and `undefined`. -/
inductive JsInput where
  | null : JsInput
  | undef : JsInput
  | bool : Bool → JsInput
  | num : Int → JsInput
  | str : String → JsInput
deriving DecidableEq

/-- JavaScript truthiness of a `JsInput`. -/
def jsTruthy : JsInput → Bool
  | JsInput.null => false
  | JsInput.undef => false
  | JsInput.bool b => b
  | JsInput.num n => n ≠ 0
  | JsInput.str s => s ≠ ""

/-- `v || ''`: the value itself when truthy, the empty string otherwise. -/
def jsEcho (v : JsInput) : JsInput :=
  if jsTruthy v then v else JsInput.str ""

/-- Whether the value is a string (`typeof v === 'string'`). -/
def JsInput.isStr : JsInput → Bool
  | JsInput.str _ => true
  | _ => false

/-- A record: a mapping from string keys to dynamic values. -/
def RecordJs : Type := List (String × JsInput)

instance : DecidableEq RecordJs := by
  unfold RecordJs
  infer_instance

/-- Key lookup on a record (`items[i][field]`); `none` models
`undefined` for a missing key. -/
def recordGet (r : RecordJs) (field : String) : Option JsInput :=
  (r.find? (fun p => p.1 = field)).map (fun p => p.2)

/-- `String(items[i][field] ?? '')`: missing keys, `null` and
`undefined` coerce to the empty string, other values to their
JavaScript string form. -/
def recordFieldString (r : RecordJs) (field : String) : String :=
  match recordGet r field with
  | none => ""
  | some JsInput.null => ""
  | some JsInput.undef => ""
  | some (JsInput.str s) => s
  | some (JsInput.num n) => toString n
  | some (JsInput.bool b) => if b then "true" else "false"

/-- A duplicate group: the kept master index, the indices merged into
it, and their similarity scores. -/
structure DuplicateGroup where
  keepIndex : Nat
  duplicateIndices : List Nat
  similarityScores : List ℚ
deriving DecidableEq

/-- The per-pair field loop of `findFuzzyDuplicates`: accumulate
`fuzzyMatch` over the named fields, skipping field pairs whose
string-coerced values are both empty, and divide by the number of
compared fields (0 when none were compared). -/
def pairAverageSimilarity (a b : RecordJs) (fields : List String) : ℚ :=
  let acc := fields.foldl (fun (st : ℚ × Nat) field =>
      let value1 := recordFieldString a field
      let value2 := recordFieldString b field
      if value1 = "" ∧ value2 = "" then st
      else (st.1 + fuzzyMatch value1 value2, st.2 + 1)) (0, 0)
  if 0 < acc.2 then acc.1 / (acc.2 : ℚ) else 0

/-- The inner `j` loop of `findFuzzyDuplicates`: scan the indices after
`i`, skipping processed ones, and collect those whose average similarity
reaches the threshold, marking them processed. -/
def dedupScan (items : List RecordJs) (fields : List String) (t : ℚ) (i : Nat) :
    List Nat → List Nat → List Nat × List ℚ × List Nat
  | [], processed => ([], [], processed)
  | j :: rest, processed =>
      if j ∈ processed then dedupScan items fields t i rest processed
      else
        let avg := pairAverageSimilarity (items.getD i []) (items.getD j []) fields
        if t ≤ avg then
          let r := dedupScan items fields t i rest (j :: processed)
          (j :: r.1, avg :: r.2.1, r.2.2)
        else dedupScan items fields t i rest processed

/-- The outer `i` loop of `findFuzzyDuplicates`: each unprocessed index
becomes a prospective master; groups with no duplicates are dropped. -/
def dedupBuild (items : List RecordJs) (fields : List String) (t : ℚ) :
    List Nat → List Nat → List DuplicateGroup
  | [], _ => []
  | i :: rest, processed =>
      if i ∈ processed then dedupBuild items fields t rest processed
      else
        let r := dedupScan items fields t i rest processed
        if r.1 = [] then dedupBuild items fields t rest r.2.2
        else ⟨i, r.1, r.2.1⟩ :: dedupBuild items fields t rest r.2.2

/-- `findFuzzyDuplicates` of utils.ts. -/
def findFuzzyDuplicates (items : List RecordJs) (fieldsToCheck : List String)
    (threshold : ℚ) : List DuplicateGroup :=
  dedupBuild items fieldsToCheck threshold (List.range items.length) []

/-- The set of indices removed by `deduplicateFuzzy` (the source's
`indicesToRemove` set, as a duplicate-free list). -/
def dedupRemoveList (groups : List DuplicateGroup) : List Nat :=
  (groups.flatMap (fun g => g.duplicateIndices)).dedup

/-- Result record of `deduplicateFuzzy`. -/
structure FuzzyDedupResult where
  deduplicated : List RecordJs
  removedCount : Nat
  duplicateGroups : List DuplicateGroup

/-- `deduplicateFuzzy` of utils.ts: find the duplicate groups, remove
every duplicate index, and report the removal count. -/
def deduplicateFuzzy (items : List RecordJs) (fieldsToCheck : List String)
    (threshold : ℚ) : FuzzyDedupResult :=
  let duplicateGroups := findFuzzyDuplicates items fieldsToCheck threshold
  let indicesToRemove := dedupRemoveList duplicateGroups
  let deduplicated :=
    (items.enum.filter (fun p => ¬ p.1 ∈ indicesToRemove)).map (fun p => p.2)
  ⟨deduplicated, indicesToRemove.length, duplicateGroups⟩

/-- The indices of the records kept by `deduplicateFuzzy`, in output order. -/
def dedupKeptIndices (items : List RecordJs) (fieldsToCheck : List String)
    (threshold : ℚ) : List Nat :=
  (items.enum.filter
    (fun p => ¬ p.1 ∈ dedupRemoveList (findFuzzyDuplicates items fieldsToCheck threshold))).map
    (fun p => p.1)

/-! ## Deduplicator: specification-side definitions

These re-state the spec's description of the algorithm ("compare against
every later unprocessed record j by averaging fuzzyMatch over the named
fields; field pairs where both values are empty after string coercion
are excluded from the average; if all fields are excluded the pair's
similarity is 0; if average similarity is at least the threshold, j
joins i's duplicate group and is marked processed") with an explicit
processed set and the average written as a sum over the included fields
divided by their number. -/

/-- Spec-worded pair similarity: the arithmetic mean of `fuzzyMatch`
over the non-excluded fields, 0 if every field is excluded. -/
def specPairSimilarity (a b : RecordJs) (fields : List String) : ℚ :=
  let compared := fields.filter
    (fun f => ¬(recordFieldString a f = "" ∧ recordFieldString b f = ""))
  if compared = [] then 0
  else ((compared.map
      (fun f => fuzzyMatch (recordFieldString a f) (recordFieldString b f))).sum) /
    (compared.length : ℚ)

/-- Spec-worded inner scan, with a `Finset` processed set and the
matched index paired with its score. -/
def specScan (items : List RecordJs) (fields : List String) (t : ℚ) (i : Nat) :
    List Nat → Finset ℕ → List (Nat × ℚ) × Finset ℕ
  | [], processed => ([], processed)
  | j :: rest, processed =>
      if j ∈ processed then specScan items fields t i rest processed
      else if t ≤ specPairSimilarity (items.getD i []) (items.getD j []) fields then
        let r := specScan items fields t i rest (insert j processed)
        ((j, specPairSimilarity (items.getD i []) (items.getD j []) fields) :: r.1, r.2)
      else specScan items fields t i rest processed

/-- Spec-worded outer loop. -/
def specBuild (items : List RecordJs) (fields : List String) (t : ℚ) :
    List Nat → Finset ℕ → List DuplicateGroup
  | [], _ => []
  | i :: rest, processed =>
      if i ∈ processed then specBuild items fields t rest processed
      else
        let r := specScan items fields t i rest processed
        if r.1 = [] then specBuild items fields t rest r.2
        else ⟨i, r.1.map (fun p => p.1), r.1.map (fun p => p.2)⟩ :: specBuild items fields t rest r.2

/-- Spec-worded deduplication pass. -/
def specFindFuzzyDuplicates (items : List RecordJs) (fields : List String)
    (t : ℚ) : List DuplicateGroup :=
  specBuild items fields t (List.range items.length) ∅

/-! ## Host-side validation of the deduplicate-fuzzy operation -/

/-- The field-list parsing of `executeDeduplicateFuzzy`:
`split(',')`, trim each part, drop empties. -/
def parseFieldsToCheck (raw : String) : List String :=
  (((splitOnChar ',' raw.toList).map (fun f => String.mk (jsTrimList f))).filter
    (fun f => 0 < f.length))

/-- `executeDeduplicateFuzzy` of the node (validation and dispatch;
the thrown `NodeOperationError`s are modelled as `Except.error`). -/
def executeDeduplicateFuzzy (fieldsToCheckRaw : String) (fuzzyThreshold : ℚ)
    (items : List RecordJs) : Except String FuzzyDedupResult :=
  let fieldsToCheck := parseFieldsToCheck fieldsToCheckRaw
  if fieldsToCheck.length = 0 then
    Except.error ("At least one field must be specified for duplicate checking")
  else if fuzzyThreshold < 0 ∨ 1 < fuzzyThreshold then
    Except.error ("Fuzzy threshold must be between 0.0 and 1.0")
  else
    Except.ok (deduplicateFuzzy items fieldsToCheck fuzzyThreshold)

/-- The spec's worked deduplication example. -/
def sampleDedupItems : List RecordJs :=
  [[("name", JsInput.str "John Smith")], [("name", JsInput.str "Jon Smith")],
   [("name", JsInput.str "Jane Doe")]]

/-! ## KeyTransformer -/

/-- JSON-like values handled by `transformObjectKeys`: primitives,
`Date` objects (payload opaque), arrays and plain objects. -/
inductive JVal where
  | null : JVal
  | undef : JVal
  | bool : Bool → JVal
  | num : Int → JVal
  | str : String → JVal
  | date : Int → JVal
  | arr : List JVal → JVal
  | obj : List (String × JVal) → JVal

/-- The two key case formats of `transformObjectKeys`. -/
inductive CaseKind where
  | snakeCase : CaseKind
  | camelCase : CaseKind

/-- The key transformer selected by the case format. -/
def keyTransformer : CaseKind → String → String
  | CaseKind.snakeCase => toSnakeCase
  | CaseKind.camelCase => toCamelCase

/-- JavaScript object assignment `result[k] = v` on an entry list:
replace in place if the key exists, else append. -/
def objAssign (acc : List (String × JVal)) (k : String) (v : JVal) : List (String × JVal) :=
  if acc.any (fun p => p.1 = k) then
    acc.map (fun p => if p.1 = k then (k, v) else p)
  else acc ++ [(k, v)]

mutual

/-- `transformObjectKeys` of utils.ts: recursively rename every object
key with the selected case format, mapping arrays elementwise and
passing primitives, `null`/`undefined` and `Date`s through. -/
def transformObjectKeys (caseType : CaseKind) : JVal → JVal
  | JVal.null => JVal.null
  | JVal.undef => JVal.undef
  | JVal.bool b => JVal.bool b
  | JVal.num n => JVal.num n
  | JVal.str s => JVal.str s
  | JVal.date d => JVal.date d
  | JVal.arr l => JVal.arr (transformJsList caseType l)
  | JVal.obj entries => JVal.obj (transformJsEntries caseType entries [])

/-- Elementwise transformation of an array. -/
def transformJsList (caseType : CaseKind) : List JVal → List JVal
  | [] => []
  | v :: rest => transformObjectKeys caseType v :: transformJsList caseType rest

/-- The `Object.entries` loop of `transformObjectKeys`, assigning each
transformed key into the result object. -/
def transformJsEntries (caseType : CaseKind) :
    List (String × JVal) → List (String × JVal) → List (String × JVal)
  | [], acc => acc
  | (k, v) :: rest, acc =>
      transformJsEntries caseType rest
        (objAssign acc (keyTransformer caseType k) (transformObjectKeys caseType v))

end

/-- The top-level keys of a value (empty for non-objects). -/
def jvalTopKeys : JVal → List String
  | JVal.obj entries => entries.map (fun p => p.1)
  | _ => []

/-! ## Name, phone and address parsing -/

/-- Join character-list words with a separator (`Array.prototype.join`). -/
def joinWith (sep : List Char) : List (List Char) → List Char
  | [] => []
  | [w] => w
  | w :: ws => w ++ sep ++ joinWith sep ws

/-- `String.prototype.replace` with a plain-string pattern: remove the
first occurrence of `pat`. -/
def replaceFirst (pat : List Char) : List Char → List Char
  | [] => []
  | c :: rest =>
      if pat.isPrefixOf (c :: rest) then (c :: rest).drop pat.length
      else c :: replaceFirst pat rest

/-- State machine for `replace(/\s+/g, ' ')`: the flag records whether
the previous character belonged to a whitespace run. -/
def wsCollapseAux : Bool → List Char → List Char
  | _, [] => []
  | prevWs, c :: rest =>
      if jsIsWhitespace c then
        if prevWs then wsCollapseAux true rest
        else ' ' :: wsCollapseAux true rest
      else c :: wsCollapseAux false rest

/-- `replace(/\s+/g, ' ')`: collapse each whitespace run to one space. -/
def wsCollapse (l : List Char) : List Char :=
  wsCollapseAux false l

/-- `split` on runs of characters satisfying `p` (JavaScript
`split(/X+/)`): empty pieces appear for leading/trailing runs. -/
def splitRunsAux (p : Char → Bool) : Bool → List Char → List Char → List (List Char)
  | _, acc, [] => [acc.reverse]
  | inSep, acc, c :: rest =>
      if p c then
        if inSep then splitRunsAux p true acc rest
        else acc.reverse :: splitRunsAux p true [] rest
      else splitRunsAux p false (c :: acc) rest

/-- `split(/X+/)` on a character list. -/
def splitRuns (p : Char → Bool) (l : List Char) : List (List Char) :=
  splitRunsAux p false [] l

/-- Parsed name record (`ParsedName` of utils.ts); the source fields
named `prefix` and `suffix` are rendered `prefixName` and `suffixName`.
The `full` field carries a dynamic value because `parseUsername` seeds
it with `username || ''` before any type check. -/
structure ParsedName where
  full : JsInput
  firstName : String
  middleName : String
  lastName : String
  prefixName : String
  suffixName : String
  initials : String
deriving DecidableEq

/-- The all-empty `ParsedName` initializer of `parseName`. -/
def emptyParsedName : ParsedName :=
  { full := JsInput.str "", firstName := "", middleName := "", lastName := "",
    prefixName := "", suffixName := "", initials := "" }

/-- `NAME_PREFIXES` of utils.ts. -/
def namePrefixes : List String :=
  ["mr", "mrs", "ms", "miss", "dr", "prof", "professor",
   "rev", "reverend", "fr", "father", "sr", "sister",
   "hon", "honorable", "judge", "justice",
   "sir", "dame", "lord", "lady", "capt", "captain",
   "col", "colonel", "gen", "general", "lt", "lieutenant",
   "sgt", "sergeant", "cpl", "corporal", "pvt", "private",
   "adm", "admiral", "cmdr", "commander", "maj", "major"]

/-- `NAME_SUFFIXES` of utils.ts. -/
def nameSuffixes : List String :=
  ["jr", "sr", "i", "ii", "iii", "iv", "v", "vi", "vii", "viii", "ix", "x",
   "phd", "md", "dds", "dvm", "jd", "esq", "esquire",
   "cpa", "rn", "rph", "pe", "ra", "aia", "faia",
   "ret", "retired", "usn", "usmc", "usaf", "usa"]

/-- `replace(/\./g, '')`. -/
def stripDots (l : List Char) : List Char :=
  l.filter (fun c => c ≠ '.')

/-- `replace(/\./g, '').replace(/,/g, '')`. -/
def stripDotsCommas (l : List Char) : List Char :=
  l.filter (fun c => c ≠ '.' ∧ c ≠ ',')

/-- The suffix-collecting `while` loop of `parseName`, on the reversed
part list; `unshift` makes the collected suffixes come out in original
order. -/
def nameSuffixLoop : List (List Char) → List (List Char) → List (List Char) × List (List Char)
  | [], acc => ([], acc)
  | [x], acc => ([x], acc)
  | x :: rest, acc =>
      if nameSuffixes.contains (String.mk (stripDotsCommas (lowerList x))) then
        nameSuffixLoop rest (x :: acc)
      else (x :: rest, acc)

/-- The first/middle/last assignment shared by `parseName` and
`parseUsername` (one, two, or three-plus parts). -/
def assignNameParts : List (List Char) → String × String × String
  | [] => ("", "", "")
  | [a] => (String.mk a, "", "")
  | [a, b] => (String.mk a, "", String.mk b)
  | a :: b :: c :: rest =>
      (String.mk a, String.mk (joinWith [' '] ((b :: c :: rest).dropLast)),
       String.mk ((b :: c :: rest).getLastD []))

/-- The initials generation shared by `parseName` and `parseUsername`:
first characters of the nonempty name parts, uppercased, dot-joined,
with a trailing dot when any part exists. -/
def nameInitials (firstName middleName lastName : String) : String :=
  let ps := [firstName, middleName, lastName].filter (fun p => p ≠ "")
  let ips := ps.map (fun p => upperList (p.toList.take 1))
  String.mk (joinWith ['.'] ips ++ (if ips.length ≠ 0 then ['.'] else []))

/-- `parseName` of utils.ts over a dynamic input: the guard
`!fullName || typeof fullName !== 'string'` returns the all-empty
record (its initializer does not echo the input). -/
def parseName (fullName : JsInput) : ParsedName :=
  match fullName with
  | JsInput.str s =>
      if s = "" then emptyParsedName else
      let name0 := wsCollapse (jsTrimList s.toList)
      let name1 :=
        if name0.contains ',' then
          match (splitOnChar ',' name0).map jsTrimList with
          | [] => name0
          | lastPart :: rest =>
              if rest = [] then name0
              else joinWith [' '] rest ++ ' ' :: lastPart
        else name0
      let parts0 := (splitOnSpace name1).filter (fun p => p ≠ [])
      if parts0 = [] then { emptyParsedName with full := JsInput.str (String.mk name0) }
      else
        let hasPfx := 1 < parts0.length ∧
          namePrefixes.contains (String.mk (stripDots (lowerList (parts0.headD []))))
        let pfx := if hasPfx then String.mk (parts0.headD []) else ""
        let parts1 := if hasPfx then parts0.tail else parts0
        let scan := nameSuffixLoop parts1.reverse []
        let parts2 := scan.1.reverse
        let sfx := String.mk (joinWith [' '] scan.2)
        let asg := assignNameParts parts2
        { full := JsInput.str (String.mk name0), firstName := asg.1,
          middleName := asg.2.1, lastName := asg.2.2, prefixName := pfx,
          suffixName := sfx, initials := nameInitials asg.1 asg.2.1 asg.2.2 }
  | _ => emptyParsedName

/-- `replace(/^[@#]/g, '')`: drop one leading `@` or `#`. -/
def stripLeadMention : List Char → List Char
  | [] => []
  | c :: rest => if c = '@' ∨ c = '#' then rest else c :: rest

/-- `replace(/[0-9]+$/g, '')`: drop the trailing digit run. -/
def stripTrailingDigits (l : List Char) : List Char :=
  (l.reverse.dropWhile Char.isDigit).reverse

/-- The username separator class `[_.-]`. -/
def isUserSep (c : Char) : Bool :=
  c = '_' ∨ c = '.' ∨ c = '-'

/-- `replace(/([a-z])([A-Z])/g, '$1 $2')`: insert a space between each
adjacent lowercase-uppercase pair. -/
def spaceLowerUpper : List Char → List Char
  | a :: b :: rest =>
      if a.isLower ∧ b.isUpper then a :: ' ' :: spaceLowerUpper (b :: rest)
      else a :: spaceLowerUpper (b :: rest)
  | l => l

/-- `parseUsername` of utils.ts over a dynamic input: note the
initializer `full: username || ''` echoes a truthy non-string input
unchanged. -/
def parseUsername (username : JsInput) : ParsedName :=
  let base : ParsedName := { emptyParsedName with full := jsEcho username }
  match username with
  | JsInput.str s =>
      if s = "" then base else
      let cleaned := stripTrailingDigits (stripLeadMention s.toList)
      let parts0 :=
        if cleaned.contains '_' ∨ cleaned.contains '.' ∨ cleaned.contains '-' then
          (splitRuns isUserSep cleaned).filter (fun p => p ≠ [])
        else
          let camelParts := splitOnSpace (spaceLowerUpper cleaned)
          if 1 < camelParts.length then camelParts else [cleaned]
      let parts := parts0.map (fun p => (toTitleCase (String.mk p)).toList)
      let asg := assignNameParts parts
      let fullStr :=
        joinWith [' '] (([asg.1, asg.2.1, asg.2.2].filter (fun p => p ≠ "")).map String.toList)
      { full := JsInput.str (String.mk fullStr), firstName := asg.1,
        middleName := asg.2.1, lastName := asg.2.2, prefixName := "",
        suffixName := "", initials := nameInitials asg.1 asg.2.1 asg.2.2 }
  | _ => base

/-- Parsed phone record (`ParsedPhoneNumber` of utils.ts); `original`
carries a dynamic value because the initializer `original: phone || ''`
runs before the type check. -/
structure ParsedPhoneNumber where
  original : JsInput
  e164 : String
  national : String
  international : String
  countryCode : String
  areaCode : String
  localNumber : String
  extension : String
  isValid : Bool
deriving DecidableEq

/-- The all-empty `ParsedPhoneNumber` with the echoed original. -/
def emptyParsedPhone (orig : JsInput) : ParsedPhoneNumber :=
  { original := orig, e164 := "", national := "", international := "",
    countryCode := "", areaCode := "", localNumber := "", extension := "",
    isValid := false }

/-- The ordered alternatives of the extension regex
`/(?:ext\.?|x|extension)\s*(\d+)/i`: the optional dot makes `ext.` be
tried before `ext`. -/
def extKeywords : List (List Char) :=
  [['e', 'x', 't', '.'], ['e', 'x', 't'], ['x'],
   ['e', 'x', 't', 'e', 'n', 's', 'i', 'o', 'n']]

/-- Try one extension alternative at the current position: the keyword
case-insensitively, then `\s*`, then one or more digits; returns the
full matched text and the captured digits. -/
def extTryKw (l : List Char) (kw : List Char) : Option (List Char × List Char) :=
  if isPrefixCI kw l then
    let after := l.drop kw.length
    let sp := after.takeWhile jsIsWhitespace
    let dg := (after.dropWhile jsIsWhitespace).takeWhile Char.isDigit
    if dg = [] then none
    else some (l.take kw.length ++ sp ++ dg, dg)
  else none

/-- Try every extension alternative, in order, at the current position. -/
def extTryAt (l : List Char) : Option (List Char × List Char) :=
  extKeywords.findSome? (extTryKw l)

/-- Leftmost match of the extension regex. -/
def extFind : List Char → Option (List Char × List Char)
  | [] => none
  | c :: rest =>
      match extTryAt (c :: rest) with
      | some r => some r
      | none => extFind rest

/-- The extension-extraction step of `parsePhoneNumber`: the captured
digits and the phone text with the first occurrence of the matched text
removed and trimmed (unchanged when no extension is found). -/
def phoneExtProcess (l : List Char) : String × List Char :=
  match extFind l with
  | some (m0, dg) => (String.mk dg, jsTrimList (replaceFirst m0 l))
  | none => ("", l)

/-- The country-code detection ladder of `parsePhoneNumber`, producing
the country code and national number. -/
def phoneCountryCode (hasPlus : Bool) (defaultCC : List Char) (digitsOnly : List Char) :
    List Char × List Char :=
  if hasPlus then
    if digitsOnly.take 1 = ['1'] ∧ digitsOnly.length = 11 then (['1'], digitsOnly.drop 1)
    else if digitsOnly.take 2 = ['4', '4'] ∧ 12 ≤ digitsOnly.length then
      (['4', '4'], digitsOnly.drop 2)
    else if digitsOnly.take 2 = ['9', '1'] ∧ digitsOnly.length = 12 then
      (['9', '1'], digitsOnly.drop 2)
    else if digitsOnly.take 2 = ['8', '6'] ∧ digitsOnly.length = 13 then
      (['8', '6'], digitsOnly.drop 2)
    else if digitsOnly.take 2 = ['4', '9'] ∧ 11 ≤ digitsOnly.length then
      (['4', '9'], digitsOnly.drop 2)
    else if 10 < digitsOnly.length then
      let ccLength := digitsOnly.length - 10
      (digitsOnly.take (min ccLength 3), digitsOnly.drop (min ccLength 3))
    else (defaultCC, digitsOnly)
  else if digitsOnly.length = 11 ∧ digitsOnly.take 1 = ['1'] then (['1'], digitsOnly.drop 1)
  else if digitsOnly.length = 11 ∧ digitsOnly.take 1 = ['0'] then
    (['4', '4'], digitsOnly.drop 1)
  else (defaultCC, digitsOnly)

/-- The formatted outputs of `parsePhoneNumber`: E.164, national and
international formats, with the extension appended when present. -/
def phoneFormats (cc national : List Char) (ext : String) : String × String × String :=
  let e164 := String.mk ('+' :: (cc ++ national))
  let nat0 :=
    if national.length = 10 then
      String.mk ('(' :: national.take 3 ++ ')' :: ' ' :: ((national.drop 3).take 3) ++
        '-' :: national.drop 6)
    else if national.length = 7 then
      String.mk (national.take 3 ++ '-' :: national.drop 3)
    else String.mk national
  let int0 :=
    if national.length = 10 then
      String.mk ('+' :: cc ++ ' ' :: national.take 3 ++ ' ' :: ((national.drop 3).take 3) ++
        ' ' :: national.drop 6)
    else String.mk ('+' :: cc ++ ' ' :: national)
  if ext ≠ "" then
    (e164, nat0 ++ " ext. " ++ ext, int0 ++ " ext. " ++ ext)
  else (e164, nat0, int0)

/-- The string path of `parsePhoneNumber`: extension extraction, digit
stripping, the 7-to-15-digit gate, country-code detection, area/local
split, and the three formats. -/
def parsePhoneNumberStr (s : String) (defaultCC : String) : ParsedPhoneNumber :=
  let ext := (phoneExtProcess s.toList).1
  let phone := (phoneExtProcess s.toList).2
  let hasPlus := (jsTrimList phone).take 1 = ['+']
  let digitsOnly := phone.filter Char.isDigit
  if digitsOnly.length < 7 ∨ 15 < digitsOnly.length then
    { original := JsInput.str s, e164 := "", national := "", international := "",
      countryCode := "", areaCode := "", localNumber := "", extension := ext,
      isValid := false }
  else
    let ccNat := phoneCountryCode hasPlus defaultCC.toList digitsOnly
    let area :=
      if 10 ≤ ccNat.2.length then String.mk (ccNat.2.take 3) else ""
    let localNum :=
      if 10 ≤ ccNat.2.length then String.mk (ccNat.2.drop 3)
      else if 7 ≤ ccNat.2.length then String.mk ccNat.2
      else ""
    let fmts := phoneFormats ccNat.1 ccNat.2 ext
    { original := JsInput.str s, e164 := fmts.1, national := fmts.2.1,
      international := fmts.2.2, countryCode := String.mk ccNat.1, areaCode := area,
      localNumber := localNum, extension := ext, isValid := isValidE164 fmts.1 }

/-- `parsePhoneNumber` of utils.ts over a dynamic input: the
initializer echoes `phone || ''`, then the guard returns it for falsy
or non-string input. -/
def parsePhoneNumber (phone : JsInput) (defaultCC : String) : ParsedPhoneNumber :=
  match phone with
  | JsInput.str s =>
      if s = "" then emptyParsedPhone (jsEcho phone)
      else parsePhoneNumberStr s defaultCC
  | _ => emptyParsedPhone (jsEcho phone)

/-- Parsed address record (`ParsedAddress` of utils.ts); `original`
carries a dynamic value because the initializer `original: address || ''`
runs before the type check. -/
structure ParsedAddress where
  original : JsInput
  streetNumber : String
  streetName : String
  unit : String
  city : String
  state : String
  postalCode : String
  country : String
  streetAddress : String
deriving DecidableEq

/-- The all-empty `ParsedAddress` with the echoed original. -/
def emptyParsedAddress (orig : JsInput) : ParsedAddress :=
  { original := orig, streetNumber := "", streetName := "", unit := "", city := "",
    state := "", postalCode := "", country := "", streetAddress := "" }

/-- `US_STATES` of utils.ts. -/
def usStates : List (String × String) :=
  [("alabama", "AL"), ("alaska", "AK"), ("arizona", "AZ"), ("arkansas", "AR"),
   ("california", "CA"), ("colorado", "CO"), ("connecticut", "CT"), ("delaware", "DE"),
   ("florida", "FL"), ("georgia", "GA"), ("hawaii", "HI"), ("idaho", "ID"),
   ("illinois", "IL"), ("indiana", "IN"), ("iowa", "IA"), ("kansas", "KS"),
   ("kentucky", "KY"), ("louisiana", "LA"), ("maine", "ME"), ("maryland", "MD"),
   ("massachusetts", "MA"), ("michigan", "MI"), ("minnesota", "MN"), ("mississippi", "MS"),
   ("missouri", "MO"), ("montana", "MT"), ("nebraska", "NE"), ("nevada", "NV"),
   ("new hampshire", "NH"), ("new jersey", "NJ"), ("new mexico", "NM"), ("new york", "NY"),
   ("north carolina", "NC"), ("north dakota", "ND"), ("ohio", "OH"), ("oklahoma", "OK"),
   ("oregon", "OR"), ("pennsylvania", "PA"), ("rhode island", "RI"), ("south carolina", "SC"),
   ("south dakota", "SD"), ("tennessee", "TN"), ("texas", "TX"), ("utah", "UT"),
   ("vermont", "VT"), ("virginia", "VA"), ("washington", "WA"), ("west virginia", "WV"),
   ("wisconsin", "WI"), ("wyoming", "WY"), ("district of columbia", "DC")]

/-- `STATE_ABBREVS` of utils.ts. -/
def stateAbbrevs : List String :=
  usStates.map (fun p => p.2)

/-- `\b` before the current position, given the previous character. -/
def boundaryBefore (prev : Option Char) : Bool :=
  match prev with
  | none => true
  | some c => ¬ jsIsWordChar c

/-- `\b` after a match, given the remaining characters. -/
def boundaryAfter : List Char → Bool
  | [] => true
  | c :: _ => ¬ jsIsWordChar c

/-- Attempt of `/\b(\d{5}(?:-\d{4})?)\b/` at the current position:
five digits, the greedy optional dash-plus-four-digits (falling back to
the short form when its trailing boundary fails), and the boundaries. -/
def zipTryAt (prev : Option Char) (l : List Char) : Option (List Char) :=
  if boundaryBefore prev ∧ (l.take 5).length = 5 ∧ (l.take 5).all Char.isDigit then
    match l.drop 5 with
    | '-' :: t =>
        if (t.take 4).length = 4 ∧ (t.take 4).all Char.isDigit ∧ boundaryAfter (t.drop 4) then
          some (l.take 5 ++ '-' :: t.take 4)
        else some (l.take 5)
    | _ => if boundaryAfter (l.drop 5) then some (l.take 5) else none
  else none

/-- Leftmost match of the US ZIP regex. -/
def zipFindAux : Option Char → List Char → Option (List Char)
  | _, [] => none
  | prev, c :: rest =>
      match zipTryAt prev (c :: rest) with
      | some m => some m
      | none => zipFindAux (some c) rest

/-- Attempt of `/\b([A-Z]\d[A-Z]\s?\d[A-Z]\d)\b/i` at the current
position (the optional single whitespace is forced when present, since
a digit must follow otherwise). -/
def caTryAt (prev : Option Char) (l : List Char) : Option (List Char) :=
  if ¬ boundaryBefore prev then none else
  match l with
  | a :: b :: c :: rest =>
      if ¬(a.isAlpha ∧ b.isDigit ∧ c.isAlpha) then none
      else
        let sp : List Char × List Char :=
          match rest with
          | d :: t => if jsIsWhitespace d then ([d], t) else ([], rest)
          | [] => ([], rest)
        match sp.2 with
        | d :: e :: f :: rest3 =>
            if d.isDigit ∧ e.isAlpha ∧ f.isDigit ∧ boundaryAfter rest3 then
              some (a :: b :: c :: sp.1 ++ [d, e, f])
            else none
        | _ => none
  | _ => none

/-- Leftmost match of the Canadian postal-code regex. -/
def caFindAux : Option Char → List Char → Option (List Char)
  | _, [] => none
  | prev, c :: rest =>
      match caTryAt prev (c :: rest) with
      | some m => some m
      | none => caFindAux (some c) rest

/-- The ordered alternatives of
`/\b(USA|United States|US|Canada|CA)\b/gi`. -/
def countryAlts : List (List Char) :=
  [['U', 'S', 'A'],
   ['U', 'n', 'i', 't', 'e', 'd', ' ', 'S', 't', 'a', 't', 'e', 's'],
   ['U', 'S'], ['C', 'a', 'n', 'a', 'd', 'a'], ['C', 'A']]

/-- Attempt a country-name alternative, in order, at the current
position. -/
def countryTryAt (prev : Option Char) (l : List Char) : Option (List Char) :=
  if ¬ boundaryBefore prev then none else
  countryAlts.findSome? (fun alt =>
    if isPrefixCI alt l ∧ boundaryAfter (l.drop alt.length) then some (l.take alt.length)
    else none)

/-- The global country-name removal: every match deleted, scanning
resuming after each match with the matched text's last character as the
boundary context. -/
def countryStripAux : Option Char → List Char → List Char
  | _, [] => []
  | prev, c :: rest =>
      match countryTryAt prev (c :: rest) with
      | some m => countryStripAux m.getLast? (rest.drop (m.length - 1))
      | none => c :: countryStripAux (some c) rest
termination_by _ l => l.length
decreasing_by
  all_goals simp_wf
  all_goals omega

/-- The ordered alternatives of the unit keyword group
`(?:apt\.?|apartment|unit|suite|ste\.?|#)`. -/
def unitKeywords : List (List Char) :=
  [['a', 'p', 't', '.'], ['a', 'p', 't'],
   ['a', 'p', 'a', 'r', 't', 'm', 'e', 'n', 't'],
   ['u', 'n', 'i', 't'], ['s', 'u', 'i', 't', 'e'],
   ['s', 't', 'e', '.'], ['s', 't', 'e'], ['#']]

/-- The unit-designator class `[a-z0-9-]` under the `i` flag. -/
def isUnitClass (c : Char) : Bool :=
  c.isAlpha ∨ c.isDigit ∨ c = '-'

/-- Attempt of `/(?:apt\.?|apartment|unit|suite|ste\.?|#)\s*([a-z0-9-]+)/i`
at the current position, returning the captured designator. -/
def unitTryAt (l : List Char) : Option (List Char) :=
  unitKeywords.findSome? (fun kw =>
    if isPrefixCI kw l then
      let dg := ((l.drop kw.length).dropWhile jsIsWhitespace).takeWhile isUnitClass
      if dg = [] then none else some dg
    else none)

/-- Leftmost match of the unit regex (no word boundary in the source
pattern, so the keyword may start inside a word). -/
def unitFind : List Char → Option (List Char)
  | [] => none
  | c :: rest =>
      match unitTryAt (c :: rest) with
      | some u => some u
      | none => unitFind rest

/-- The JavaScript `.` character class (anything but a line
terminator). -/
def dotChar (c : Char) : Bool :=
  ¬(c = '\n' ∨ c = '\r' ∨ c = '\u2028' ∨ c = '\u2029')

/-- Whether a remainder matches the optional trailing group
`\s+(?:apt\.?|apartment|unit|suite|ste\.?|#).*$` of the street regex
(the `\s+` is forced maximal since no keyword starts with whitespace). -/
def trailingUnitOk (l : List Char) : Bool :=
  match l with
  | [] => false
  | c :: _ =>
      jsIsWhitespace c ∧
      (let after := l.dropWhile jsIsWhitespace
       unitKeywords.any (fun kw =>
         isPrefixCI kw after ∧ (after.drop kw.length).all dotChar))

/-- The anchored street regex
`/^(\d+(?:-\d+)?[a-z]?)\s+(.+?)(?:\s+(?:apt\.?|apartment|unit|suite|ste\.?|#).*)?$/i`:
the number group is forced maximal (a shorter digit run leaves a digit
where only whitespace may follow), the `\s+` backtracks from longest,
and the lazy `(.+?)` grows from one character; returns groups 1 and 2. -/
def streetTry (s : List Char) : Option (List Char × List Char) :=
  let d := s.takeWhile Char.isDigit
  if d = [] then none else
  let r1 := s.dropWhile Char.isDigit
  let g1a : List Char × List Char :=
    match r1 with
    | '-' :: t =>
        let d2 := t.takeWhile Char.isDigit
        if d2 = [] then ([], r1) else ('-' :: d2, t.dropWhile Char.isDigit)
    | _ => ([], r1)
  let g1b : List Char × List Char :=
    match g1a.2 with
    | c :: t => if c.isAlpha then ([c], t) else ([], g1a.2)
    | [] => ([], g1a.2)
  let g1 := d ++ g1a.1 ++ g1b.1
  let r3 := g1b.2
  let m := (r3.takeWhile jsIsWhitespace).length
  if m = 0 then none else
  (List.range m).findSome? (fun i =>
    let rest := r3.drop (m - i)
    (List.range rest.length).findSome? (fun j =>
      let g2 := rest.take (j + 1)
      let after := rest.drop (j + 1)
      if g2.all dotChar ∧ (trailingUnitOk after ∨ after.isEmpty) then some (g1, g2)
      else none))

/-- `replace(/,.*$/, '')` on line-terminator-free text: cut at the
first comma. -/
def cutAtComma (l : List Char) : List Char :=
  l.takeWhile (fun c => c ≠ ',')

/-- `parseAddress` of utils.ts over a dynamic input: normalization,
postal-code extraction (US then Canadian), country-name removal,
comma-split into street/city/state parts, unit and street-number
extraction, and the city-state fallback. -/
def parseAddress (address : JsInput) : ParsedAddress :=
  match address with
  | JsInput.str s =>
      if s = "" then emptyParsedAddress (jsEcho address) else
      let normalized0 := wsCollapse (jsTrimList s.toList)
      let pcn : String × String × List Char :=
        match zipFindAux none normalized0 with
        | some zm => (String.mk zm, "USA", jsTrimList (replaceFirst zm normalized0))
        | none =>
            match caFindAux none normalized0 with
            | some cm =>
                (String.mk ((upperList cm).map (fun c => if jsIsWhitespace c then ' ' else c)),
                 "Canada", jsTrimList (replaceFirst cm normalized0))
            | none => ("", "", normalized0)
      let normalized2 := jsTrimList (countryStripAux none pcn.2.2)
      let parts := ((splitOnChar ',' normalized2).map jsTrimList).filter (fun p => p ≠ [])
      let street : String × String × String × String :=
        match parts with
        | [] => ("", "", "", "")
        | streetPart :: _ =>
            let unit :=
              match unitFind streetPart with
              | some u => String.mk u
              | none => ""
            let sns : String × String :=
              match streetTry streetPart with
              | some g => (String.mk g.1, String.mk (jsTrimList (cutAtComma g.2)))
              | none => ("", String.mk (jsTrimList (cutAtComma streetPart)))
            let sAddr0 := if sns.1 ≠ "" then sns.1 ++ " " ++ sns.2 else sns.2
            let sAddr := if unit ≠ "" then sAddr0 ++ " #" ++ unit else sAddr0
            (sns.1, sns.2, unit, sAddr)
      let city0 :=
        match parts with
        | _ :: cityPart :: _ => String.mk cityPart
        | _ => ""
      let state0 :=
        match parts with
        | _ :: _ :: statePart :: _ =>
            let stateUpper := String.mk (upperList (jsTrimList statePart))
            if stateAbbrevs.contains stateUpper then stateUpper
            else
              match usStates.find? (fun p => p.1 = String.mk (lowerList (jsTrimList statePart))) with
              | some pr => pr.2
              | none => String.mk (jsTrimList statePart)
        | _ => ""
      let cs : String × String :=
        if state0 = "" ∧ city0 ≠ "" then
          let csp := splitRuns jsIsWhitespace city0.toList
          if 2 ≤ csp.length then
            let lastU := String.mk (upperList (csp.getLastD []))
            if stateAbbrevs.contains lastU then
              (String.mk (joinWith [' '] csp.dropLast), lastU)
            else (city0, state0)
          else (city0, state0)
        else (city0, state0)
      { original := JsInput.str s, streetNumber := street.1, streetName := street.2.1,
        unit := street.2.2.1, city := cs.1, state := cs.2, postalCode := pcn.1,
        country := pcn.2.1, streetAddress := street.2.2.2 }
  | _ => emptyParsedAddress (jsEcho address)

/-! ## Theorems -/

/-- A string holding at least one digit is nonempty. -/
theorem hne_of_digits (phone : String) (h : 1 ≤ (digitList phone).length) :
    phone ≠ "" := by
  intro hc
  subst hc
  simp [digitList] at h

/-- C4: `cleanPhoneNumber` classifies its input by digit count and
leading-digit pattern after stripping non-digits: a remembered leading
`+` yields `+` plus the digits verbatim; 11 digits starting with `1`
yields `+` plus the digits; exactly 10 digits yields `+`, the default
country code, then the digits; 11 digits starting with `0` yields `+44`
plus the remaining 10 digits; 12 digits starting with `44` yields `+`
plus the digits; 7 to 10 digits otherwise get the default country code
prepended; and the two documented examples hold. -/
theorem cleanPhoneNumber_classification (phone dcc : String) :
    (jsHasPlus phone = true → 1 ≤ (digitList phone).length → (digitList phone).length ≤ 15 →
        cleanPhoneNumber phone dcc = String.mk ('+' :: digitList phone)) ∧
    (jsHasPlus phone = false → (digitList phone).length = 11 → (digitList phone).headD ' ' = '1' →
        cleanPhoneNumber phone dcc = String.mk ('+' :: digitList phone)) ∧
    (jsHasPlus phone = false → (digitList phone).length = 10 →
        cleanPhoneNumber phone dcc = String.mk ('+' :: (dcc.toList ++ digitList phone))) ∧
    (jsHasPlus phone = false → (digitList phone).length = 11 → (digitList phone).headD ' ' = '0' →
        cleanPhoneNumber phone dcc = String.mk ('+' :: '4' :: '4' :: (digitList phone).drop 1)) ∧
    (jsHasPlus phone = false → (digitList phone).length = 12 → (digitList phone).take 2 = ['4', '4'] →
        cleanPhoneNumber phone dcc = String.mk ('+' :: digitList phone)) ∧
    (jsHasPlus phone = false → 7 ≤ (digitList phone).length → (digitList phone).length ≤ 10 →
        cleanPhoneNumber phone dcc = String.mk ('+' :: (dcc.toList ++ digitList phone))) ∧
    cleanPhoneNumber "(555) 000-1111" "1" = "+15550001111" ∧
    cleanPhoneNumber "07946095800" "44" = "+447946095800" := by
  have hne : 1 ≤ (digitList phone).length → phone ≠ "" := by
    intro h hc
    subst hc
    simp [digitList] at h
  refine ⟨?_, ?_, ?_, ?_, ?_, ?_, by decide, by decide⟩
  · intro hplus h1 h15
    have h0 : ¬((digitList phone).length = 0) := by omega
    have h15x : ¬(15 < (digitList phone).length) := by omega
    simp [cleanPhoneNumber, hne h1, h0, h15x, hplus]
  · intro hplus hlen hhead
    have h1 : 1 ≤ (digitList phone).length := by omega
    rw [List.headD_eq_head?_getD] at hhead
    simp [cleanPhoneNumber, hne h1, hplus, hlen, hhead]
  · intro hplus hlen
    have h1 : 1 ≤ (digitList phone).length := by omega
    simp [cleanPhoneNumber, hne h1, hplus, hlen]
  · intro hplus hlen hhead
    have h1 : 1 ≤ (digitList phone).length := by omega
    rw [List.headD_eq_head?_getD] at hhead
    simp [cleanPhoneNumber, hne h1, hplus, hlen, hhead]
  · intro hplus hlen htake
    have h1 : 1 ≤ (digitList phone).length := by omega
    simp [cleanPhoneNumber, hne h1, hplus, hlen, htake]
  · intro hplus h7 h10
    have h1 : 1 ≤ (digitList phone).length := by omega
    by_cases hlen : (digitList phone).length = 10
    · simp [cleanPhoneNumber, hne h1, hplus, hlen]
    · have h11 : ¬((digitList phone).length = 11) := by omega
      have h12 : ¬((digitList phone).length = 12) := by omega
      have h0 : ¬((digitList phone).length = 0) := by omega
      have h15x : ¬(15 < (digitList phone).length) := by omega
      simp [cleanPhoneNumber, hne h1, hplus, hlen, h11, h12, h0, h15x, h7, h10]

/-- Witness for C4: the leading-plus rule at a concrete phone number. -/
theorem cleanPhoneNumber_classification_witness :
    cleanPhoneNumber "+1 (555) 123-4567" "1" = String.mk ('+' :: digitList "+1 (555) 123-4567") :=
  (cleanPhoneNumber_classification "+1 (555) 123-4567" "1").1 (by decide) (by decide) (by decide)

/-- C5 counterexample: an input with three digits and no leading plus is
not returned unchanged, contradicting the claim that inputs whose digit
count matches no listed pattern come back verbatim. -/
theorem cleanPhoneNumber_unchanged_counterexample :
    cleanPhoneNumber "123" "1" = "+123" ∧ ("+123" : String) ≠ "123" := by decide

/-- C5 (amended): the original input is returned unchanged exactly for
zero digits or more than 15 digits; any other input matching none of the
listed digit-count patterns (1 to 6 digits, 11 digits starting with
neither 0 nor 1, 12 digits not starting with 44, or 13 to 15 digits, all
without a leading plus) instead gets `+` prepended to its digits. -/
theorem cleanPhoneNumber_unmatched_behavior (phone dcc : String) :
    (((digitList phone).length = 0 ∨ 15 < (digitList phone).length) →
        cleanPhoneNumber phone dcc = phone) ∧
    (jsHasPlus phone = false →
      ((1 ≤ (digitList phone).length ∧ (digitList phone).length ≤ 6) ∨
       ((digitList phone).length = 11 ∧ (digitList phone).headD ' ' ≠ '0' ∧
         (digitList phone).headD ' ' ≠ '1') ∨
       ((digitList phone).length = 12 ∧ (digitList phone).take 2 ≠ ['4', '4']) ∨
       (13 ≤ (digitList phone).length ∧ (digitList phone).length ≤ 15)) →
      cleanPhoneNumber phone dcc = String.mk ('+' :: digitList phone)) := by
  constructor
  · intro h
    by_cases hc : phone = ""
    · subst hc
      simp [cleanPhoneNumber]
    · rcases h with h | h
      · simp [cleanPhoneNumber, hc, h]
      · have h0 : ¬((digitList phone).length = 0) := by omega
        simp [cleanPhoneNumber, hc, h0, h]
  · intro hplus h
    have h1 : 1 ≤ (digitList phone).length := by
      rcases h with ⟨h, _⟩ | ⟨h, _⟩ | ⟨h, _⟩ | ⟨h, _⟩ <;> omega
    have h0 : ¬((digitList phone).length = 0) := by omega
    have hc := hne_of_digits phone h1
    rcases h with ⟨ha, hb⟩ | ⟨ha, hb, hb2⟩ | ⟨ha, hb⟩ | ⟨ha, hb⟩
    · have h15x : ¬(15 < (digitList phone).length) := by omega
      have h11 : ¬((digitList phone).length = 11) := by omega
      have h10 : ¬((digitList phone).length = 10) := by omega
      have h12 : ¬((digitList phone).length = 12) := by omega
      have h7 : ¬(7 ≤ (digitList phone).length ∧ (digitList phone).length ≤ 10) := by omega
      simp [cleanPhoneNumber, hc, hplus, h0, h15x, h11, h10, h12, h7]
    · have h15x : ¬(15 < (digitList phone).length) := by omega
      have h10 : ¬((digitList phone).length = 10) := by omega
      have h12 : ¬((digitList phone).length = 12) := by omega
      have h7 : ¬(7 ≤ (digitList phone).length ∧ (digitList phone).length ≤ 10) := by omega
      rw [List.headD_eq_head?_getD] at hb hb2
      simp [cleanPhoneNumber, hc, hplus, h0, h15x, ha, hb, hb2, h10, h12, h7]
    · have h15x : ¬(15 < (digitList phone).length) := by omega
      have h10 : ¬((digitList phone).length = 10) := by omega
      have h11 : ¬((digitList phone).length = 11) := by omega
      have h7 : ¬(7 ≤ (digitList phone).length ∧ (digitList phone).length ≤ 10) := by omega
      simp [cleanPhoneNumber, hc, hplus, h0, h15x, ha, hb, h10, h11, h7]
    · have h15x : ¬(15 < (digitList phone).length) := by omega
      have h10 : ¬((digitList phone).length = 10) := by omega
      have h11 : ¬((digitList phone).length = 11) := by omega
      have h12 : ¬((digitList phone).length = 12) := by omega
      have h7 : ¬(7 ≤ (digitList phone).length ∧ (digitList phone).length ≤ 10) := by omega
      simp [cleanPhoneNumber, hc, hplus, h0, h15x, h10, h11, h12, h7]

/-- Witness for the amended C5: three digits without a plus become
`+123`, and sixteen digits come back unchanged. -/
theorem cleanPhoneNumber_unmatched_behavior_witness :
    cleanPhoneNumber "123" "1" = String.mk ('+' :: digitList "123") ∧
    cleanPhoneNumber "1234567890123456" "1" = "1234567890123456" :=
  ⟨(cleanPhoneNumber_unmatched_behavior "123" "1").2 (by decide) (Or.inl (by decide)),
   (cleanPhoneNumber_unmatched_behavior "1234567890123456" "1").1 (Or.inr (by decide))⟩

/-- C10: on any input holding 1 to 15 digit characters, with a
digits-only default country code, `cleanPhoneNumber` returns a string
that is a single `+` followed by a nonempty run of digits. -/
theorem cleanPhoneNumber_output_shape (phone dcc : String)
    (h1 : 1 ≤ (digitList phone).length) (h15 : (digitList phone).length ≤ 15)
    (hd : ∀ c ∈ dcc.toList, c.isDigit = true) :
    ∃ t : List Char, (cleanPhoneNumber phone dcc).toList = '+' :: t ∧ t ≠ [] ∧
      ∀ c ∈ t, c.isDigit = true := by
  have hc := hne_of_digits phone h1
  have hdl : ∀ c ∈ digitList phone, c.isDigit = true := by
    intro c hcmem
    exact (List.mem_filter.mp hcmem).2
  have hdlne : digitList phone ≠ [] := by
    intro hnil
    rw [hnil] at h1
    simp at h1
  have h0 : ¬((digitList phone).length = 0) := by omega
  have h15x : ¬(15 < (digitList phone).length) := by omega
  rw [cleanPhoneNumber]
  simp only [if_neg hc, if_neg h0, if_neg h15x]
  split_ifs with hb1 hb2 hb3 hb4 hb5 hb6
  · exact ⟨digitList phone, rfl, hdlne, hdl⟩
  · exact ⟨digitList phone, rfl, hdlne, hdl⟩
  · refine ⟨dcc.toList ++ digitList phone, rfl, by simp [hdlne], ?_⟩
    intro c hcmem
    rcases List.mem_append.mp hcmem with hm | hm
    · exact hd c hm
    · exact hdl c hm
  · refine ⟨'4' :: '4' :: (digitList phone).drop 1, rfl, by simp, ?_⟩
    intro c hcmem
    simp only [List.mem_cons] at hcmem
    rcases hcmem with rfl | rfl | hm
    · decide
    · decide
    · exact hdl c (List.mem_of_mem_drop hm)
  · exact ⟨digitList phone, rfl, hdlne, hdl⟩
  · refine ⟨dcc.toList ++ digitList phone, rfl, by simp [hdlne], ?_⟩
    intro c hcmem
    rcases List.mem_append.mp hcmem with hm | hm
    · exact hd c hm
    · exact hdl c hm
  · exact ⟨digitList phone, rfl, hdlne, hdl⟩

/-- Witness for C10 at a concrete local number. -/
theorem cleanPhoneNumber_output_shape_witness :
    ∃ t : List Char, (cleanPhoneNumber "555-1234" "1").toList = '+' :: t ∧ t ≠ [] ∧
      ∀ c ∈ t, c.isDigit = true :=
  cleanPhoneNumber_output_shape "555-1234" "1" (by decide) (by decide) (by decide)

/-- C3: the deduplication operation rejects with a validation error
whenever the parsed field list is empty or the threshold lies outside
[0,1], and otherwise runs the deduplication (no silent coercion). -/
theorem executeDeduplicateFuzzy_validation (raw : String) (t : ℚ) (items : List RecordJs) :
    ((parseFieldsToCheck raw = [] ∨ t < 0 ∨ 1 < t) →
      ∃ msg, executeDeduplicateFuzzy raw t items = Except.error msg) ∧
    ((parseFieldsToCheck raw ≠ [] ∧ 0 ≤ t ∧ t ≤ 1) →
      executeDeduplicateFuzzy raw t items =
        Except.ok (deduplicateFuzzy items (parseFieldsToCheck raw) t)) := by
  constructor
  · intro h
    by_cases hf : (parseFieldsToCheck raw).length = 0
    · exact ⟨"At least one field must be specified for duplicate checking",
        by simp [executeDeduplicateFuzzy, hf]⟩
    · have hrange : t < 0 ∨ 1 < t := by
        rcases h with h | h
        · exact absurd (by simp [h]) hf
        · exact h
      exact ⟨"Fuzzy threshold must be between 0.0 and 1.0",
        by simp [executeDeduplicateFuzzy, hf, hrange]⟩
  · intro h
    obtain ⟨h1, h2, h3⟩ := h
    have hf : ¬(parseFieldsToCheck raw).length = 0 := by
      simpa using h1
    have hrange : ¬(t < 0 ∨ 1 < t) := by
      push_neg
      exact ⟨h2, h3⟩
    simp [executeDeduplicateFuzzy, hf, hrange]

/-- Witness for C3: an empty field list and an out-of-range threshold
are both rejected. -/
theorem executeDeduplicateFuzzy_validation_witness :
    (∃ msg, executeDeduplicateFuzzy "" (1/2) [] = Except.error msg) ∧
    (∃ msg, executeDeduplicateFuzzy "name" (3/2) [] = Except.error msg) :=
  ⟨(executeDeduplicateFuzzy_validation "" (1/2) []).1 (Or.inl (by decide)),
   (executeDeduplicateFuzzy_validation "name" (3/2) []).1 (Or.inr (Or.inr (by norm_num)))⟩

/-- The inner scan emits one score per collected duplicate index. -/
theorem dedupScan_length (items : List RecordJs) (fields : List String) (t : ℚ) (i : Nat) :
    ∀ (js processed : List Nat),
      (dedupScan items fields t i js processed).1.length =
        (dedupScan items fields t i js processed).2.1.length := by
  intro js
  induction js with
  | nil => intro processed; simp [dedupScan]
  | cons j rest ih =>
      intro processed
      simp only [dedupScan]
      split_ifs with hj ht
      · exact ih processed
      · simp [ih (j :: processed)]
      · exact ih processed

/-- Every index collected by the inner scan comes from the scanned list
and was not processed on entry. -/
theorem dedupScan_mem (items : List RecordJs) (fields : List String) (t : ℚ) (i : Nat) :
    ∀ (js processed : List Nat) (x : Nat),
      x ∈ (dedupScan items fields t i js processed).1 → x ∈ js ∧ x ∉ processed := by
  intro js
  induction js with
  | nil => intro processed x hx; simp [dedupScan] at hx
  | cons j rest ih =>
      intro processed x hx
      simp only [dedupScan] at hx
      split_ifs at hx with hj ht
      · obtain ⟨h1, h2⟩ := ih processed x hx
        exact ⟨List.mem_cons_of_mem _ h1, h2⟩
      · rcases List.mem_cons.mp hx with rfl | hx2
        · exact ⟨List.mem_cons_self _ _, hj⟩
        · obtain ⟨h1, h2⟩ := ih (j :: processed) x hx2
          exact ⟨List.mem_cons_of_mem _ h1, fun hc => h2 (List.mem_cons_of_mem _ hc)⟩
      · obtain ⟨h1, h2⟩ := ih processed x hx
        exact ⟨List.mem_cons_of_mem _ h1, h2⟩

/-- The collected duplicate indices are duplicate-free when the scanned
list is. -/
theorem dedupScan_nodup (items : List RecordJs) (fields : List String) (t : ℚ) (i : Nat) :
    ∀ (js processed : List Nat), js.Nodup →
      (dedupScan items fields t i js processed).1.Nodup := by
  intro js
  induction js with
  | nil => intro processed _; simp [dedupScan]
  | cons j rest ih =>
      intro processed hnd
      have hrest : rest.Nodup := (List.nodup_cons.mp hnd).2
      simp only [dedupScan]
      split_ifs with hj ht
      · exact ih processed hrest
      · rw [List.nodup_cons]
        refine ⟨fun hc => ?_, ih (j :: processed) hrest⟩
        exact (dedupScan_mem items fields t i rest (j :: processed) j hc).2
          (List.mem_cons_self _ _)
      · exact ih processed hrest

/-- The processed list returned by the inner scan holds exactly the
collected indices and the indices processed on entry. -/
theorem dedupScan_processed (items : List RecordJs) (fields : List String) (t : ℚ) (i : Nat) :
    ∀ (js processed : List Nat) (x : Nat),
      x ∈ (dedupScan items fields t i js processed).2.2 ↔
        x ∈ (dedupScan items fields t i js processed).1 ∨ x ∈ processed := by
  intro js
  induction js with
  | nil => intro processed x; simp [dedupScan]
  | cons j rest ih =>
      intro processed x
      simp only [dedupScan]
      split_ifs with hj ht
      · exact ih processed x
      · rw [ih (j :: processed) x]
        simp only [List.mem_cons]
        constructor
        · rintro (h | h | h)
          · exact Or.inl (Or.inr h)
          · exact Or.inl (Or.inl h)
          · exact Or.inr h
        · rintro ((h | h) | h)
          · exact Or.inr (Or.inl h)
          · exact Or.inl h
          · exact Or.inr (Or.inr h)
      · exact ih processed x

/-- Every collected (index, score) pair of the inner scan satisfies:
the score is the pair's average similarity against record `i` and
reaches the threshold. -/
theorem dedupScan_scores (items : List RecordJs) (fields : List String) (t : ℚ) (i : Nat) :
    ∀ (js processed : List Nat),
      List.Forall₂
        (fun j s => s = pairAverageSimilarity (items.getD i []) (items.getD j []) fields ∧ t ≤ s)
        (dedupScan items fields t i js processed).1
        (dedupScan items fields t i js processed).2.1 := by
  intro js
  induction js with
  | nil => intro processed; simp [dedupScan]
  | cons j rest ih =>
      intro processed
      simp only [dedupScan]
      split_ifs with hj ht
      · exact ih processed
      · exact List.Forall₂.cons ⟨rfl, ht⟩ (ih (j :: processed))
      · exact ih processed

/-- All group indices (keeps and duplicates together) produced by the
outer loop are pairwise distinct, drawn from the scanned index list, and
unprocessed on entry. -/
theorem dedupBuild_flat (items : List RecordJs) (fields : List String) (t : ℚ) :
    ∀ (js processed : List Nat), js.Nodup →
      ((dedupBuild items fields t js processed).flatMap
          (fun g => g.keepIndex :: g.duplicateIndices)).Nodup ∧
      ∀ x ∈ (dedupBuild items fields t js processed).flatMap
          (fun g => g.keepIndex :: g.duplicateIndices), x ∈ js ∧ x ∉ processed := by
  intro js
  induction js with
  | nil => intro processed _; simp [dedupBuild]
  | cons i rest ih =>
      intro processed hnd
      have hi : i ∉ rest := (List.nodup_cons.mp hnd).1
      have hrest : rest.Nodup := (List.nodup_cons.mp hnd).2
      simp only [dedupBuild]
      split_ifs with hip hempty
      · obtain ⟨h1, h2⟩ := ih processed hrest
        exact ⟨h1, fun x hx => ⟨List.mem_cons_of_mem _ (h2 x hx).1, (h2 x hx).2⟩⟩
      · obtain ⟨h1, h2⟩ := ih ((dedupScan items fields t i rest processed).2.2) hrest
        refine ⟨h1, fun x hx => ?_⟩
        obtain ⟨hx1, hx2⟩ := h2 x hx
        refine ⟨List.mem_cons_of_mem _ hx1, fun hxp => ?_⟩
        exact hx2 ((dedupScan_processed items fields t i rest processed x).mpr (Or.inr hxp))
      · obtain ⟨h1, h2⟩ := ih ((dedupScan items fields t i rest processed).2.2) hrest
        rw [List.flatMap_cons]
        constructor
        · rw [List.nodup_append]
          refine ⟨?_, h1, ?_⟩
          · rw [List.nodup_cons]
            refine ⟨fun hc => ?_, dedupScan_nodup items fields t i rest processed hrest⟩
            exact hi (dedupScan_mem items fields t i rest processed i hc).1
          · intro x hx hx2
            obtain ⟨hf1, hf2⟩ := h2 x hx2
            rcases List.mem_cons.mp hx with rfl | hxds
            · exact hi hf1
            · exact hf2 ((dedupScan_processed items fields t i rest processed x).mpr
                (Or.inl hxds))
        · intro x hx
          rcases List.mem_append.mp hx with hx | hx
          · rcases List.mem_cons.mp hx with rfl | hxds
            · exact ⟨List.mem_cons_self _ _, hip⟩
            · obtain ⟨hm1, hm2⟩ := dedupScan_mem items fields t i rest processed x hxds
              exact ⟨List.mem_cons_of_mem _ hm1, hm2⟩
          · obtain ⟨hf1, hf2⟩ := h2 x hx
            refine ⟨List.mem_cons_of_mem _ hf1, fun hxp => ?_⟩
            exact hf2 ((dedupScan_processed items fields t i rest processed x).mpr
              (Or.inr hxp))

/-- Strengthen a `Forall₂` with a fact about the left elements. -/
theorem forall₂_imp_mem {α β : Type} {R S : α → β → Prop} :
    ∀ {l1 : List α} {l2 : List β}, List.Forall₂ R l1 l2 →
      (∀ a b, a ∈ l1 → R a b → S a b) → List.Forall₂ S l1 l2 := by
  intro l1 l2 h
  induction h with
  | nil => intro _; exact List.Forall₂.nil
  | cons hr _ ih =>
      intro himp
      exact List.Forall₂.cons (himp _ _ (List.mem_cons_self _ _) hr)
        (ih (fun a b ha => himp a b (List.mem_cons_of_mem _ ha)))

/-- Every group produced by the outer loop pairs its duplicate indices
and scores one-to-one, each score being the average similarity against
the group's master and reaching the threshold, with the master strictly
first. -/
theorem dedupBuild_groups (items : List RecordJs) (fields : List String) (t : ℚ) :
    ∀ (js processed : List Nat), js.Pairwise (· < ·) →
      ∀ g ∈ dedupBuild items fields t js processed,
        g.duplicateIndices.length = g.similarityScores.length ∧
        List.Forall₂
          (fun j s =>
            s = pairAverageSimilarity (items.getD g.keepIndex []) (items.getD j []) fields ∧
            t ≤ s ∧ g.keepIndex < j)
          g.duplicateIndices g.similarityScores := by
  intro js
  induction js with
  | nil => intro processed _ g hg; simp [dedupBuild] at hg
  | cons i rest ih =>
      intro processed hpw g hg
      have hlt : ∀ x ∈ rest, i < x := fun x hx => List.rel_of_pairwise_cons hpw hx
      have hrest : rest.Pairwise (· < ·) := (List.pairwise_cons.mp hpw).2
      simp only [dedupBuild] at hg
      split_ifs at hg with hip hempty
      · exact ih processed hrest g hg
      · exact ih ((dedupScan items fields t i rest processed).2.2) hrest g hg
      · rcases List.mem_cons.mp hg with rfl | hg2
        · refine ⟨dedupScan_length items fields t i rest processed, ?_⟩
          refine forall₂_imp_mem (dedupScan_scores items fields t i rest processed) ?_
          intro j s hj hp
          exact ⟨hp.1, hp.2,
            hlt j (dedupScan_mem items fields t i rest processed j hj).1⟩
        · exact ih ((dedupScan items fields t i rest processed).2.2) hrest g hg2

/-- The accumulated total/count of the source's field loop equals the
sum and length over the non-excluded fields. -/
theorem pairAverageSimilarity_eq_spec (a b : RecordJs) (fields : List String) :
    pairAverageSimilarity a b fields = specPairSimilarity a b fields := by
  have key : ∀ (fs : List String) (s : ℚ) (c : Nat),
      fs.foldl (fun (st : ℚ × Nat) field =>
        let value1 := recordFieldString a field
        let value2 := recordFieldString b field
        if value1 = "" ∧ value2 = "" then st
        else (st.1 + fuzzyMatch value1 value2, st.2 + 1)) (s, c) =
      (s + ((fs.filter
          (fun f => ¬(recordFieldString a f = "" ∧ recordFieldString b f = ""))).map
          (fun f => fuzzyMatch (recordFieldString a f) (recordFieldString b f))).sum,
       c + (fs.filter
          (fun f => ¬(recordFieldString a f = "" ∧ recordFieldString b f = ""))).length) := by
    intro fs
    induction fs with
    | nil => intro s c; simp
    | cons f rest ih =>
        intro s c
        simp only [List.foldl_cons, List.filter_cons]
        by_cases hf : recordFieldString a f = "" ∧ recordFieldString b f = ""
        · rw [if_pos hf, if_neg (by simp only [decide_eq_true_eq]; exact not_not_intro hf)]
          exact ih s c
        · rw [if_neg hf, if_pos (by simp only [decide_eq_true_eq]; exact hf)]
          rw [List.map_cons, List.sum_cons, List.length_cons, ih]
          rw [Prod.mk.injEq]
          constructor
          · ring
          · omega
  simp only [pairAverageSimilarity, specPairSimilarity]
  rw [key fields 0 0]
  dsimp only
  rw [Nat.zero_add, zero_add]
  by_cases hfil : (fields.filter
      (fun f => ¬(recordFieldString a f = "" ∧ recordFieldString b f = ""))) = []
  · rw [if_pos hfil, hfil]
    simp
  · rw [if_neg hfil, if_pos (List.length_pos.mpr hfil)]

/-- The source's inner scan agrees with the spec-worded scan whenever
the two processed sets agree. -/
theorem dedupScan_eq_spec (items : List RecordJs) (fields : List String) (t : ℚ) (i : Nat) :
    ∀ (js : List Nat) (pl : List Nat) (fs : Finset ℕ), (∀ x, x ∈ pl ↔ x ∈ fs) →
      (dedupScan items fields t i js pl).1 =
        ((specScan items fields t i js fs).1.map (fun p => p.1)) ∧
      (dedupScan items fields t i js pl).2.1 =
        ((specScan items fields t i js fs).1.map (fun p => p.2)) ∧
      (∀ x, x ∈ (dedupScan items fields t i js pl).2.2 ↔
        x ∈ (specScan items fields t i js fs).2) := by
  intro js
  induction js with
  | nil =>
      intro pl fs h
      simp only [dedupScan, specScan]
      exact ⟨by simp, by simp, h⟩
  | cons j rest ih =>
      intro pl fs h
      simp only [dedupScan, specScan, pairAverageSimilarity_eq_spec]
      by_cases hj : j ∈ pl
      · have hjf : j ∈ fs := (h j).mp hj
        rw [if_pos hj, if_pos hjf]
        exact ih pl fs h
      · have hjf : j ∉ fs := fun c => hj ((h j).mpr c)
        rw [if_neg hj, if_neg hjf]
        by_cases ht : t ≤ specPairSimilarity (items.getD i []) (items.getD j []) fields
        · rw [if_pos ht, if_pos ht]
          have hrel : ∀ x, x ∈ (j :: pl) ↔ x ∈ insert j fs := by
            intro x
            simp [List.mem_cons, Finset.mem_insert, h x]
          obtain ⟨e1, e2, e3⟩ := ih (j :: pl) (insert j fs) hrel
          exact ⟨by simp [e1], by simp [e2], e3⟩
        · rw [if_neg ht, if_neg ht]
          exact ih pl fs h

/-- The source's outer loop agrees with the spec-worded outer loop
whenever the two processed sets agree. -/
theorem dedupBuild_eq_spec (items : List RecordJs) (fields : List String) (t : ℚ) :
    ∀ (js : List Nat) (pl : List Nat) (fs : Finset ℕ), (∀ x, x ∈ pl ↔ x ∈ fs) →
      dedupBuild items fields t js pl = specBuild items fields t js fs := by
  intro js
  induction js with
  | nil => intro pl fs h; simp [dedupBuild, specBuild]
  | cons i rest ih =>
      intro pl fs h
      obtain ⟨e1, e2, e3⟩ := dedupScan_eq_spec items fields t i rest pl fs h
      simp only [dedupBuild, specBuild]
      by_cases hip : i ∈ pl
      · have hif : i ∈ fs := (h i).mp hip
        rw [if_pos hip, if_pos hif]
        exact ih pl fs h
      · have hif : i ∉ fs := fun c => hip ((h i).mpr c)
        rw [if_neg hip, if_neg hif]
        by_cases he : (dedupScan items fields t i rest pl).1 = []
        · have he2 : (specScan items fields t i rest fs).1 = [] := by
            rw [e1] at he
            exact List.map_eq_nil_iff.mp he
          rw [if_pos he, if_pos he2]
          exact ih _ _ e3
        · have he2 : (specScan items fields t i rest fs).1 ≠ [] := by
            intro hc
            exact he (by rw [e1, hc]; rfl)
          rw [if_neg he, if_neg he2]
          rw [e1, e2, ih _ _ e3]

/-- C1 equality component: `findFuzzyDuplicates` computes exactly the
spec-worded deduplication pass. -/
theorem findFuzzyDuplicates_eq_spec (items : List RecordJs) (fields : List String) (t : ℚ) :
    findFuzzyDuplicates items fields t = specFindFuzzyDuplicates items fields t := by
  unfold findFuzzyDuplicates specFindFuzzyDuplicates
  exact dedupBuild_eq_spec items fields t (List.range items.length) [] ∅ (by simp)

/-- Filtering an enumerated list and projecting the values yields a
subsequence of the original list. -/
theorem enum_filter_snd_sublist {α : Type} (q : Nat × α → Bool) :
    ∀ (l : List α) (k : Nat),
      (((List.enumFrom k l).filter q).map (fun p => p.2)).Sublist l := by
  intro l
  induction l with
  | nil => intro k; simp
  | cons a rest ih =>
      intro k
      rw [List.enumFrom_cons, List.filter_cons]
      by_cases hq : q (k, a)
      · simp only [hq, if_pos]
        exact (ih (k + 1)).cons₂ a
      · simp only [hq]
        rw [if_neg (by simp [hq])]
        exact (ih (k + 1)).cons a

/-- Filtering an enumerated list on an index predicate and projecting
the indices yields the filtered index range. -/
theorem enum_filter_fst_eq {α : Type} (q : Nat → Bool) :
    ∀ (l : List α) (k : Nat),
      ((List.enumFrom k l).filter (fun p => q p.1)).map (fun p => p.1) =
        (List.range' k l.length).filter q := by
  intro l
  induction l with
  | nil => intro k; simp
  | cons a rest ih =>
      intro k
      rw [List.enumFrom_cons, List.filter_cons, List.length_cons, List.range'_succ,
        List.filter_cons]
      by_cases hq : q k
      · simp only [hq, if_pos]
        simp only [List.map_cons]
        rw [ih (k + 1)]
      · simp only [hq]
        rw [if_neg (by simp [hq]), if_neg (by simp [hq])]
        exact ih (k + 1)

/-- Membership in the removal set is membership in some group's
duplicate indices. -/
theorem dedupRemoveList_mem (groups : List DuplicateGroup) (x : Nat) :
    x ∈ dedupRemoveList groups ↔ ∃ g ∈ groups, x ∈ g.duplicateIndices := by
  simp [dedupRemoveList, List.mem_dedup, List.mem_flatMap]

/-- An index is kept exactly when it is in range and not removed. -/
theorem dedupKeptIndices_mem (items : List RecordJs) (fields : List String) (t : ℚ)
    (idx : Nat) :
    idx ∈ dedupKeptIndices items fields t ↔
      idx < items.length ∧ idx ∉ dedupRemoveList (findFuzzyDuplicates items fields t) := by
  unfold dedupKeptIndices
  rw [show items.enum = List.enumFrom 0 items from rfl]
  rw [enum_filter_fst_eq
    (fun i => ¬ i ∈ dedupRemoveList (findFuzzyDuplicates items fields t))]
  simp [List.mem_filter, List.mem_range'_1]

/-- C2: in every deduplication run, each group pairs duplicate indices
with scores one-to-one, all group indices (keeps and duplicates
together) are pairwise distinct, and every in-range index is either kept
(and is no group's duplicate) or is the duplicate of exactly one
group. -/
theorem deduplicateFuzzy_invariants (items : List RecordJs) (fields : List String) (t : ℚ) :
    (∀ g ∈ findFuzzyDuplicates items fields t,
        g.duplicateIndices.length = g.similarityScores.length) ∧
    ((findFuzzyDuplicates items fields t).flatMap
        (fun g => g.keepIndex :: g.duplicateIndices)).Nodup ∧
    ∀ idx, idx < items.length →
      (idx ∈ dedupKeptIndices items fields t ∧
        ∀ g ∈ findFuzzyDuplicates items fields t, idx ∉ g.duplicateIndices) ∨
      (idx ∉ dedupKeptIndices items fields t ∧
        ∃! g, g ∈ findFuzzyDuplicates items fields t ∧ idx ∈ g.duplicateIndices) := by
  have hflat := dedupBuild_flat items fields t (List.range items.length) []
    (List.nodup_range _)
  have hgroups := dedupBuild_groups items fields t (List.range items.length) []
    (List.pairwise_lt_range _)
  rw [show dedupBuild items fields t (List.range items.length) [] =
      findFuzzyDuplicates items fields t from rfl] at hflat hgroups
  refine ⟨fun g hg => (hgroups g hg).1, hflat.1, ?_⟩
  intro idx hidx
  by_cases hrm : idx ∈ dedupRemoveList (findFuzzyDuplicates items fields t)
  · right
    refine ⟨fun hk => ((dedupKeptIndices_mem items fields t idx).mp hk).2 hrm, ?_⟩
    obtain ⟨g, hg, hgidx⟩ := (dedupRemoveList_mem _ idx).mp hrm
    refine ⟨g, ⟨hg, hgidx⟩, ?_⟩
    rintro g2 ⟨hg2, hg2idx⟩
    by_contra hne
    have hpw := (List.nodup_flatMap.mp hflat.1).2
    have hsym : Symmetric (List.Disjoint on
        (fun g : DuplicateGroup => g.keepIndex :: g.duplicateIndices)) :=
      fun _ _ hab x hx1 hx2 => hab hx2 hx1
    exact hpw.forall hsym hg2 hg hne
      (List.mem_cons_of_mem _ hg2idx) (List.mem_cons_of_mem _ hgidx)
  · left
    refine ⟨(dedupKeptIndices_mem items fields t idx).mpr ⟨hidx, hrm⟩, ?_⟩
    intro g hg hgidx
    exact hrm ((dedupRemoveList_mem _ idx).mpr ⟨g, hg, hgidx⟩)

/-- Witness for C2 at the example: index 1 is removed, and is the
duplicate of exactly one group. -/
theorem deduplicateFuzzy_invariants_witness :
    (1 ∈ dedupKeptIndices sampleDedupItems ["name"] (8/10) ∧
      ∀ g ∈ findFuzzyDuplicates sampleDedupItems ["name"] (8/10),
        1 ∉ g.duplicateIndices) ∨
    (1 ∉ dedupKeptIndices sampleDedupItems ["name"] (8/10) ∧
      ∃! g, g ∈ findFuzzyDuplicates sampleDedupItems ["name"] (8/10) ∧
        1 ∈ g.duplicateIndices) :=
  (deduplicateFuzzy_invariants sampleDedupItems ["name"] (8/10)).2.2 1 (by decide)

/-- C1: the deduplication engine computes exactly the spec-worded
algorithm (single pass with a processed set, averaging `fuzzyMatch` over
the named fields with both-empty field pairs excluded and an all-excluded
pair scoring 0, a later unprocessed record joining the group exactly when
the average reaches the threshold); the deduplicated output is a
subsequence of the input (original relative order preserved); and every
recorded duplicate has its score equal to that average, at or above the
threshold, with the first-occurrence master strictly earlier. -/
theorem findFuzzyDuplicates_meets_spec (items : List RecordJs) (fields : List String) (t : ℚ) :
    findFuzzyDuplicates items fields t = specFindFuzzyDuplicates items fields t ∧
    (deduplicateFuzzy items fields t).deduplicated.Sublist items ∧
    ∀ g ∈ findFuzzyDuplicates items fields t,
      List.Forall₂
        (fun j s =>
          s = specPairSimilarity (items.getD g.keepIndex []) (items.getD j []) fields ∧
          t ≤ s ∧ g.keepIndex < j)
        g.duplicateIndices g.similarityScores := by
  refine ⟨findFuzzyDuplicates_eq_spec items fields t, ?_, ?_⟩
  · exact enum_filter_snd_sublist _ items 0
  · intro g hg
    have hgroups := dedupBuild_groups items fields t (List.range items.length) []
      (List.pairwise_lt_range _)
    rw [show dedupBuild items fields t (List.range items.length) [] =
        findFuzzyDuplicates items fields t from rfl] at hgroups
    refine ((hgroups g hg).2).imp ?_
    intro j s hp
    exact ⟨hp.1.trans (pairAverageSimilarity_eq_spec _ _ _), hp.2.1, hp.2.2⟩

section
attribute [local semireducible] Rat.add Rat.mul Rat.sub Rat.inv

set_option maxRecDepth 400000 in
/-- Witness for C1 at the example: record 1 joins record 0's group with
similarity 9/10 at threshold 8/10. -/
theorem findFuzzyDuplicates_meets_spec_witness :
    List.Forall₂
      (fun j s =>
        s = specPairSimilarity (sampleDedupItems.getD 0 []) (sampleDedupItems.getD j [])
              ["name"] ∧
        (8/10 : ℚ) ≤ s ∧ 0 < j)
      [1] [9/10] :=
  (findFuzzyDuplicates_meets_spec sampleDedupItems ["name"] (8/10)).2.2
    ⟨0, [1], [9/10]⟩ (by decide)

end

/-- At most every flag is true. -/
theorem countTrue_le (l : List Bool) : countTrue l ≤ l.length := by
  simpa [countTrue] using List.length_filter_le (fun x => x = true) l

/-- No flag of the initial match array is true. -/
theorem countTrue_replicate_false (n : Nat) : countTrue (List.replicate n false) = 0 := by
  induction n with
  | zero => rfl
  | succ k ih => simp [countTrue, List.replicate_succ]

/-- Setting a false flag to true increments the count. -/
theorem countTrue_set_true :
    ∀ (l : List Bool) (j : Nat), l.getD j true = false →
      countTrue (l.set j true) = countTrue l + 1 := by
  intro l
  induction l with
  | nil => intro j h; simp [List.getD] at h
  | cons bhd rest ih =>
      intro j h
      cases j with
      | zero =>
          have hb : bhd = false := by simpa using h
          subst hb
          simp [List.set, countTrue]
      | succ k =>
          have h2 : rest.getD k true = false := by simpa using h
          cases bhd <;> simp [List.set, countTrue, List.filter] <;>
            simpa [countTrue] using ih k h2

/-- A successful Jaro match search found an unmatched position. -/
theorem jaroFind_found (s2 : List Char) (m2 : List Bool) (c : Char) (start stop j : Nat)
    (h : jaroFind s2 m2 c start stop = some j) : m2.getD j true = false := by
  unfold jaroFind at h
  have hp := List.find?_some h
  simp only [decide_eq_true_eq] at hp
  exact hp.1

/-- The first-string flag list has one entry per character. -/
theorem jaroMatch_fst_length (s2 : List Char) (w : Nat) :
    ∀ (s1 : List Char) (i : Nat) (m2 : List Bool),
      (jaroMatch s2 w s1 i m2).1.length = s1.length := by
  intro s1
  induction s1 with
  | nil => intro i m2; simp [jaroMatch]
  | cons c cs ih =>
      intro i m2
      cases h : jaroFind s2 m2 c (i - w) (min (i + w + 1) s2.length) with
      | none => simp [jaroMatch, h, ih]
      | some j => simp [jaroMatch, h, ih]

/-- The second-string flag list keeps its length. -/
theorem jaroMatch_snd_length (s2 : List Char) (w : Nat) :
    ∀ (s1 : List Char) (i : Nat) (m2 : List Bool),
      (jaroMatch s2 w s1 i m2).2.length = m2.length := by
  intro s1
  induction s1 with
  | nil => intro i m2; simp [jaroMatch]
  | cons c cs ih =>
      intro i m2
      cases h : jaroFind s2 m2 c (i - w) (min (i + w + 1) s2.length) with
      | none => simp [jaroMatch, h, ih]
      | some j => simp [jaroMatch, h, ih]

/-- Each collected match marks exactly one fresh position of the second
string: the final true-count of the second-string flags equals the
initial count plus the number of matches. -/
theorem jaroMatch_count (s2 : List Char) (w : Nat) :
    ∀ (s1 : List Char) (i : Nat) (m2 : List Bool),
      countTrue (jaroMatch s2 w s1 i m2).2 =
        countTrue m2 + countTrue (jaroMatch s2 w s1 i m2).1 := by
  intro s1
  induction s1 with
  | nil => intro i m2; simp [jaroMatch, countTrue]
  | cons c cs ih =>
      intro i m2
      cases h : jaroFind s2 m2 c (i - w) (min (i + w + 1) s2.length) with
      | none =>
          simp only [jaroMatch, h]
          rw [ih]
          simp [countTrue]
      | some j =>
          have hset := countTrue_set_true m2 j (jaroFind_found s2 m2 c _ _ j h)
          simp only [jaroMatch, h]
          rw [ih, hset]
          simp [countTrue]
          omega

/-- The transposition count never exceeds the number of matched
positions of the first string. -/
theorem jaroTranspositions_le :
    ∀ (l1 l2 : List (Char × Bool)),
      jaroTranspositions l1 l2 ≤ (l1.filter (fun p => p.2)).length := by
  intro l1
  induction l1 with
  | nil => intro l2; simp [jaroTranspositions]
  | cons p r1 ih =>
      intro l2
      obtain ⟨c1, b1⟩ := p
      cases b1 with
      | false => simpa [jaroTranspositions] using ih l2
      | true =>
          simp only [jaroTranspositions, if_pos]
          cases hd : l2.dropWhile (fun p => p.2 = false) with
          | nil =>
              simp only [List.filter_cons, decide_eq_true_eq]
              rw [if_pos trivial]
              exact Nat.le_trans (ih []) (by simp)
          | cons q r2 =>
              simp only [List.filter_cons, decide_eq_true_eq]
              rw [if_pos trivial]
              have hq : (if c1 = q.1 then 0 else 1) ≤ 1 := by split_ifs <;> omega
              have := ih r2
              simp only [List.length_cons]
              omega

/-- Filtering a zip on the flag side counts the true flags. -/
theorem zip_filter_snd_length :
    ∀ (l1 : List Char) (l2 : List Bool), l1.length = l2.length →
      ((l1.zip l2).filter (fun p => p.2)).length = countTrue l2 := by
  intro l1
  induction l1 with
  | nil =>
      intro l2 h
      have : l2 = [] := by cases l2 <;> simp_all
      subst this
      simp [countTrue]
  | cons c r1 ih =>
      intro l2 h
      cases l2 with
      | nil => simp at h
      | cons b r2 =>
          have h2 : r1.length = r2.length := by simpa using h
          cases b with
          | false => simpa [List.filter_cons, countTrue] using ih r2 h2
          | true =>
              simp only [List.zip_cons_cons, List.filter_cons, decide_eq_true_eq]
              rw [if_pos trivial]
              simp only [List.length_cons, countTrue, List.filter_cons]
              simpa [countTrue] using ih r2 h2

/-- Jaro similarity never exceeds 1. -/
theorem jaroSimilarity_le_one (a b : String) : jaroSimilarity a b ≤ 1 := by
  simp only [jaroSimilarity]
  split_ifs with h1 h2 h3
  · exact le_refl 1
  · norm_num
  · norm_num
  · set s1 := normFold a with hs1
    set s2 := normFold b with hs2
    set w := max s1.length s2.length / 2 - 1 with hw
    set r := jaroMatch s2 w s1 0 (List.replicate s2.length false) with hr
    set m := countTrue r.1 with hm
    set t := jaroTranspositions (s1.zip r.1) (s2.zip r.2) with ht
    have hl1 : 0 < s1.length := by
      rcases Nat.eq_zero_or_pos s1.length with h | h
      · exact absurd (Or.inl h) h2
      · exact h
    have hl2 : 0 < s2.length := by
      rcases Nat.eq_zero_or_pos s2.length with h | h
      · exact absurd (Or.inr h) h2
      · exact h
    have hm0 : 0 < m := Nat.pos_of_ne_zero h3
    have hmle1 : m ≤ s1.length := by
      have ha1 := countTrue_le r.1
      have ha2 := jaroMatch_fst_length s2 w s1 0 (List.replicate s2.length false)
      rw [← hr] at ha2
      omega
    have hmle2 : m ≤ s2.length := by
      have hc := jaroMatch_count s2 w s1 0 (List.replicate s2.length false)
      have hlen := jaroMatch_snd_length s2 w s1 0 (List.replicate s2.length false)
      rw [← hr] at hc hlen
      rw [countTrue_replicate_false] at hc
      have hb := countTrue_le r.2
      simp only [List.length_replicate] at hlen
      omega
    have htle : t ≤ m := by
      have hb1 := jaroTranspositions_le (s1.zip r.1) (s2.zip r.2)
      have hb2 := zip_filter_snd_length s1 r.1
        (by rw [hr, jaroMatch_fst_length])
      omega
    have c1 : (m : ℚ) / s1.length ≤ 1 := by
      rw [div_le_one (by exact_mod_cast hl1)]
      exact_mod_cast hmle1
    have c2 : (m : ℚ) / s2.length ≤ 1 := by
      rw [div_le_one (by exact_mod_cast hl2)]
      exact_mod_cast hmle2
    have c3 : ((m : ℚ) - (t : ℚ) / 2) / m ≤ 1 := by
      rw [div_le_one (by exact_mod_cast hm0)]
      have hnn : (0:ℚ) ≤ (t : ℚ) := by positivity
      linarith
    linarith

/-- When the case-folded trimmed inputs are nonempty and share their
first character, the Jaro similarity is strictly positive (the first
characters always match inside the window). -/
theorem jaroSimilarity_pos (a b : String) (ha : normFold a ≠ [])
    (hh : (normFold a).head? = (normFold b).head?) : 0 < jaroSimilarity a b := by
  have hb : normFold b ≠ [] := by
    intro hc
    rw [hc] at hh
    cases hna : normFold a with
    | nil => exact ha hna
    | cons c cs => rw [hna] at hh; simp at hh
  simp only [jaroSimilarity]
  split_ifs with h1 h2 h3
  · norm_num
  · exfalso
    rcases h2 with h | h
    · exact ha (List.length_eq_zero.mp h)
    · exact hb (List.length_eq_zero.mp h)
  · exfalso
    obtain ⟨c, cs, hsa⟩ := List.exists_cons_of_ne_nil ha
    obtain ⟨d, ds, hsb⟩ := List.exists_cons_of_ne_nil hb
    have hcd : c = d := by
      rw [hsa, hsb] at hh
      simpa using hh
    subst hcd
    set w := max (normFold a).length (normFold b).length / 2 - 1 with hw
    have hfind : jaroFind (normFold b) (List.replicate (normFold b).length false) c
        (0 - w) (min (0 + w + 1) (normFold b).length) = some 0 := by
      unfold jaroFind
      have hlenb : (normFold b).length = ds.length + 1 := by rw [hsb]; simp
      have hmin : min (0 + w + 1) (normFold b).length - (0 - w) =
          (min (w + 1) (ds.length + 1) - 1) + 1 := by
        simp only [Nat.zero_sub, Nat.zero_add, hlenb]
        omega
      rw [hmin, Nat.zero_sub, List.range'_succ]
      have hp : (List.replicate (normFold b).length false).getD 0 true = false ∧
          (normFold b).getD 0 c = c := by
        constructor
        · rw [hlenb]
          simp [List.replicate_succ]
        · rw [hsb]
          simp
      rw [List.find?_cons_of_pos]
      simp only [decide_eq_true_eq]
      exact hp
    rw [hsa] at h3
    simp only [jaroMatch, hfind] at h3
    simp [countTrue] at h3
  · set s1 := normFold a with hs1
    set s2 := normFold b with hs2
    set w := max s1.length s2.length / 2 - 1 with hw
    set r := jaroMatch s2 w s1 0 (List.replicate s2.length false) with hr
    set m := countTrue r.1 with hm
    set t := jaroTranspositions (s1.zip r.1) (s2.zip r.2) with ht
    have hl1 : 0 < s1.length := by
      rcases Nat.eq_zero_or_pos s1.length with h | h
      · exact absurd (Or.inl h) h2
      · exact h
    have hl2 : 0 < s2.length := by
      rcases Nat.eq_zero_or_pos s2.length with h | h
      · exact absurd (Or.inr h) h2
      · exact h
    have hm0 : 0 < m := Nat.pos_of_ne_zero h3
    have htle : t ≤ m := by
      have hb1 := jaroTranspositions_le (s1.zip r.1) (s2.zip r.2)
      have hb2 := zip_filter_snd_length s1 r.1
        (by rw [hr, jaroMatch_fst_length])
      omega
    have c1 : (0:ℚ) < (m : ℚ) / s1.length := by
      apply div_pos
      · exact_mod_cast hm0
      · exact_mod_cast hl1
    have c2 : (0:ℚ) < (m : ℚ) / s2.length := by
      apply div_pos
      · exact_mod_cast hm0
      · exact_mod_cast hl2
    have c3 : (0:ℚ) ≤ ((m : ℚ) - (t : ℚ) / 2) / m := by
      apply div_nonneg
      · have : (t:ℚ) ≤ (m:ℚ) := by exact_mod_cast htle
        linarith
      · positivity
    linarith

/-- C8: for strings whose case-folded trimmed forms share a non-empty
common prefix, Jaro-Winkler at the default prefix scale dominates Jaro,
the boost equals (prefix length capped at 4) times `min(prefixScale,
0.25)` times `(1 - jaro)`, and Jaro-Winkler returns 0 unchanged whenever
Jaro is 0. -/
theorem jaroWinkler_prefix_boost (a b : String) :
    (normFold a ≠ [] → (normFold a).head? = (normFold b).head? →
      jaroSimilarity a b ≤ jaroWinklerSimilarity a b ∧
      jaroWinklerSimilarity a b - jaroSimilarity a b =
        (jaroPrefixLen (normFold a) (normFold b) 4 : ℚ) * min (1/10 : ℚ) (1/4) *
          (1 - jaroSimilarity a b)) ∧
    (jaroSimilarity a b = 0 → jaroWinklerSimilarity a b = 0) := by
  constructor
  · intro ha hh
    have hpos := jaroSimilarity_pos a b ha hh
    have hle1 := jaroSimilarity_le_one a b
    have hne : jaroSimilarity a b ≠ 0 := ne_of_gt hpos
    constructor
    · simp only [jaroWinklerSimilarity, jaroWinklerSimilarityWith, if_neg hne]
      have hp : (0:ℚ) ≤ (jaroPrefixLen (normFold a) (normFold b) 4 : ℚ) := by positivity
      have hs : (0:ℚ) ≤ min (1/10 : ℚ) (1/4) := by norm_num
      have hprod : (0:ℚ) ≤ (jaroPrefixLen (normFold a) (normFold b) 4 : ℚ) *
          min (1/10 : ℚ) (1/4) * (1 - jaroSimilarity a b) :=
        mul_nonneg (mul_nonneg hp hs) (by linarith)
      linarith
    · simp only [jaroWinklerSimilarity, jaroWinklerSimilarityWith, if_neg hne]
      ring
  · intro h0
    simp only [jaroWinklerSimilarity, jaroWinklerSimilarityWith, if_pos h0]

/-- Witness for C8 at the classic pair martha/marhta. -/
theorem jaroWinkler_prefix_boost_witness :
    jaroSimilarity "martha" "marhta" ≤ jaroWinklerSimilarity "martha" "marhta" ∧
    jaroWinklerSimilarity "martha" "marhta" - jaroSimilarity "martha" "marhta" =
      (jaroPrefixLen (normFold "martha") (normFold "marhta") 4 : ℚ) *
        min (1/10 : ℚ) (1/4) * (1 - jaroSimilarity "martha" "marhta") :=
  (jaroWinkler_prefix_boost "martha" "marhta").1 (by decide) (by decide)

/-! ## ASCII character facts for the case converters -/

/-- UInt32 order reflects the natural order. -/
theorem uint32_le_iff (a b : UInt32) : a ≤ b ↔ a.toNat ≤ b.toNat := Iff.rfl

/-- The code point of `Char.ofNat` below the surrogate range. -/
theorem char_val_ofNat_valid (n : Nat) (h1 : n < 0xd800) : (Char.ofNat n).val.toNat = n := by
  rw [Char.ofNat, dif_pos]
  · rfl
  · exact Or.inl (by exact_mod_cast h1)

/-- Characters are equal exactly when their code points are. -/
theorem char_eq_iff (c d : Char) : (c = d) ↔ c.val.toNat = d.val.toNat := by
  constructor
  · intro h; rw [h]
  · intro h
    apply Char.ext
    exact UInt32.toNat.inj h

/-- `Char.isUpper` in terms of code points. -/
theorem char_isUpper_iff (c : Char) :
    c.isUpper = true ↔ 65 ≤ c.val.toNat ∧ c.val.toNat ≤ 90 := by
  simp only [Char.isUpper, Bool.and_eq_true, decide_eq_true_eq, ge_iff_le]
  rw [uint32_le_iff, uint32_le_iff]
  exact Iff.rfl

/-- `Char.isLower` in terms of code points. -/
theorem char_isLower_iff (c : Char) :
    c.isLower = true ↔ 97 ≤ c.val.toNat ∧ c.val.toNat ≤ 122 := by
  simp only [Char.isLower, Bool.and_eq_true, decide_eq_true_eq, ge_iff_le]
  rw [uint32_le_iff, uint32_le_iff]
  exact Iff.rfl

/-- `Char.isDigit` in terms of code points. -/
theorem char_isDigit_iff (c : Char) :
    c.isDigit = true ↔ 48 ≤ c.val.toNat ∧ c.val.toNat ≤ 57 := by
  simp only [Char.isDigit, Bool.and_eq_true, decide_eq_true_eq, ge_iff_le]
  rw [uint32_le_iff, uint32_le_iff]
  exact Iff.rfl

/-- The code point of `Char.toLower`. -/
theorem char_toLower_val (c : Char) :
    (c.toLower).val.toNat =
      if 65 ≤ c.val.toNat ∧ c.val.toNat ≤ 90 then c.val.toNat + 32 else c.val.toNat := by
  rw [Char.toLower]
  simp only [Char.toNat, ge_iff_le]
  by_cases h : 65 ≤ c.val.toNat ∧ c.val.toNat ≤ 90
  · rw [if_pos h, if_pos h]
    exact char_val_ofNat_valid _ (by omega)
  · rw [if_neg h, if_neg h]

/-- `Char.toLower` fixes non-uppercase characters. -/
theorem char_toLower_fix (c : Char) (h : ¬(65 ≤ c.val.toNat ∧ c.val.toNat ≤ 90)) :
    c.toLower = c := by
  rw [Char.toLower, if_neg]
  simpa [Char.toNat] using h

/-- Lowering a `[a-zA-Z0-9_]` character yields a non-uppercase,
non-separator `[a-z0-9_]` character fixed by further lowering. -/
theorem snake_chars_good (d : Char) (h : isSnakeKeep d = true) :
    (Char.toLower d).isUpper = false ∧ isSnakeSep (Char.toLower d) = false ∧
    isSnakeKeep (Char.toLower d) = true ∧ Char.toLower (Char.toLower d) = Char.toLower d := by
  have hv := char_toLower_val d
  simp only [isSnakeKeep, Char.isAlpha, Bool.or_eq_true, char_isUpper_iff, char_isLower_iff,
    char_isDigit_iff, char_eq_iff, decide_eq_true_eq] at h
  have h95 : ('_').val.toNat = 95 := rfl
  have hlow : 97 ≤ (Char.toLower d).val.toNat ∧ (Char.toLower d).val.toNat ≤ 122 ∨
      48 ≤ (Char.toLower d).val.toNat ∧ (Char.toLower d).val.toNat ≤ 57 ∨
      (Char.toLower d).val.toNat = 95 := by
    rw [hv]
    split_ifs with hb <;> omega
  refine ⟨?_, ?_, ?_, ?_⟩
  · rw [Bool.eq_false_iff]
    intro hc
    rw [char_isUpper_iff] at hc
    omega
  · rw [Bool.eq_false_iff]
    intro hc
    simp only [isSnakeSep, jsIsWhitespace, Bool.or_eq_true, decide_eq_true_eq,
      char_eq_iff] at hc
    have e1 : (' ').val.toNat = 32 := rfl
    have e2 : ('\t').val.toNat = 9 := rfl
    have e3 : ('\n').val.toNat = 10 := rfl
    have e4 : ('\r').val.toNat = 13 := rfl
    have e5 : ('\x0b').val.toNat = 11 := rfl
    have e6 : ('\x0c').val.toNat = 12 := rfl
    have e7 : ('\u00A0').val.toNat = 160 := rfl
    have e8 : ('-').val.toNat = 45 := rfl
    have e9 : ('.').val.toNat = 46 := rfl
    omega
  · simp only [isSnakeKeep, Char.isAlpha, Bool.or_eq_true, char_isUpper_iff, char_isLower_iff,
      char_isDigit_iff, char_eq_iff, decide_eq_true_eq]
    omega
  · apply char_toLower_fix
    omega

/-! ## toSnakeCase idempotence -/

/-- `dropWhile` keeps a list whose head fails the predicate. -/
theorem dropWhile_eq_self_of_head {p : Char → Bool} (l : List Char)
    (h : ∀ c, l.head? = some c → p c = false) : l.dropWhile p = l := by
  cases l with
  | nil => rfl
  | cons c rest => exact List.dropWhile_cons_of_neg (by simp [h c rfl])

/-- The head surviving `dropWhile` fails the predicate. -/
theorem dropWhile_head_false {p : Char → Bool} (l : List Char) (c : Char)
    (h : (l.dropWhile p).head? = some c) : p c = false := by
  have hw := List.head?_dropWhile_not p l
  rw [h] at hw
  exact hw

/-- A nonempty `dropWhile` keeps the last element. -/
theorem dropWhile_getLast_of_ne_nil {p : Char → Bool} (l : List Char)
    (h : l.dropWhile p ≠ []) : (l.dropWhile p).getLast? = l.getLast? := by
  obtain ⟨pre, happ⟩ := (List.dropWhile_suffix p : l.dropWhile p <:+ l)
  conv_rhs => rw [← happ]
  rw [List.getLast?_append_of_ne_nil pre h]

/-- `insertLowerUpper` is the identity on uppercase-free lists. -/
theorem insertLowerUpper_id (l : List Char) (h : ∀ c ∈ l, c.isUpper = false) :
    insertLowerUpper l = l := by
  induction l using insertLowerUpper.induct with
  | case1 a b rest hc ih =>
      exact absurd hc.2 (by simp [h b (by simp)])
  | case2 a b rest hc ih =>
      rw [insertLowerUpper, if_neg hc]
      rw [ih (fun c hcm => h c (List.mem_cons_of_mem _ hcm))]
  | case3 l hl =>
      cases l with
      | nil => rfl
      | cons a rest =>
          cases rest with
          | nil => rfl
          | cons b rest2 => exact absurd rfl (hl a b rest2)

/-- `insertCapsBoundary` is the identity on uppercase-free lists. -/
theorem insertCapsBoundary_id (l : List Char) (h : ∀ c ∈ l, c.isUpper = false) :
    insertCapsBoundary l = l := by
  induction l using insertCapsBoundary.induct with
  | case1 a b c rest hc ih =>
      exact absurd hc.2.1 (by simp [h b (by simp)])
  | case2 a b c rest hc ih =>
      rw [insertCapsBoundary, if_neg hc]
      rw [ih (fun d hdm => h d (List.mem_cons_of_mem _ hdm))]
  | case3 l hl =>
      cases l with
      | nil => rfl
      | cons a rest =>
          cases rest with
          | nil => rfl
          | cons b rest2 =>
              cases rest2 with
              | nil => rfl
              | cons c rest3 => exact absurd rfl (hl a b c rest3)

/-- `replaceSepRuns` is the identity on separator-free lists. -/
theorem replaceSepRuns_id (l : List Char) (h : ∀ c ∈ l, isSnakeSep c = false) :
    replaceSepRuns l = l := by
  induction l using replaceSepRuns.induct with
  | case1 => simp [replaceSepRuns]
  | case2 c rest hc ih =>
      rw [h c (by simp)] at hc
      exact absurd hc (by simp)
  | case3 c rest hc ih =>
      rw [replaceSepRuns.eq_2, if_neg hc]
      rw [ih (fun d hdm => h d (List.mem_cons_of_mem _ hdm))]

/-- A map whose function fixes every element is the identity. -/
theorem map_fix_id {f : Char → Char} (l : List Char) (h : ∀ c ∈ l, f c = c) :
    l.map f = l := by
  induction l with
  | nil => rfl
  | cons c rest ih =>
      rw [List.map_cons, h c (by simp), ih (fun d hdm => h d (List.mem_cons_of_mem _ hdm))]

/-- `trimUnderscores` is the identity when neither end is an underscore. -/
theorem trimUnderscores_id (l : List Char) (hh : l.head? ≠ some '_')
    (hl : l.getLast? ≠ some '_') : trimUnderscores l = l := by
  unfold trimUnderscores
  rw [dropWhile_eq_self_of_head l
    (fun c hc => decide_eq_false (fun hcc => hh (by rw [hc, hcc])))]
  rw [dropWhile_eq_self_of_head l.reverse
    (fun c hc => decide_eq_false (fun hcc => hl (by rw [← List.head?_reverse, hc, hcc])))]
  exact List.reverse_reverse l

/-- `collapseUnderscores` is the identity when no two underscores are
adjacent. -/
theorem collapseUnderscores_id (l : List Char)
    (h : l.Chain' (fun x y => ¬(x = '_' ∧ y = '_'))) : collapseUnderscores l = l := by
  induction l using collapseUnderscores.induct with
  | case1 => simp [collapseUnderscores]
  | case2 rest ih =>
      have hrest : rest.dropWhile (fun x => x = '_') = rest := by
        apply dropWhile_eq_self_of_head
        intro d hd
        apply decide_eq_false
        intro hdd
        rcases List.chain'_cons'.mp h with ⟨hhead, _⟩
        exact hhead d hd ⟨rfl, hdd⟩
      rw [hrest] at ih
      rw [collapseUnderscores.eq_2, if_pos rfl, hrest,
        ih (List.chain'_cons'.mp h).2]
  | case3 c rest hc ih =>
      rw [collapseUnderscores.eq_2, if_neg hc, ih (List.Chain'.tail h)]

/-- `collapseUnderscores` only emits characters of its input. -/
theorem collapseUnderscores_subset (l : List Char) :
    ∀ c ∈ collapseUnderscores l, c ∈ l := by
  induction l using collapseUnderscores.induct with
  | case1 => intro c hc; simp [collapseUnderscores] at hc
  | case2 rest ih =>
      intro c hc
      rw [collapseUnderscores.eq_2, if_pos rfl] at hc
      rcases List.mem_cons.mp hc with rfl | hc2
      · exact List.mem_cons_self _ _
      · exact List.mem_cons_of_mem _ (List.dropWhile_subset _ (ih c hc2))
  | case3 d rest hd ih =>
      intro c hc
      rw [collapseUnderscores.eq_2, if_neg hd] at hc
      rcases List.mem_cons.mp hc with rfl | hc2
      · exact List.mem_cons_self _ _
      · exact List.mem_cons_of_mem _ (ih c hc2)

/-- `collapseUnderscores` keeps the head. -/
theorem collapseUnderscores_head (l : List Char) :
    (collapseUnderscores l).head? = l.head? := by
  induction l using collapseUnderscores.induct with
  | case1 => simp [collapseUnderscores]
  | case2 rest ih =>
      rw [collapseUnderscores.eq_2, if_pos rfl]
      simp
  | case3 d rest hd ih =>
      rw [collapseUnderscores.eq_2, if_neg hd]
      simp

/-- `collapseUnderscores` leaves no two adjacent underscores. -/
theorem collapseUnderscores_chain (l : List Char) :
    (collapseUnderscores l).Chain' (fun x y => ¬(x = '_' ∧ y = '_')) := by
  induction l using collapseUnderscores.induct with
  | case1 => simp [collapseUnderscores]
  | case2 rest ih =>
      rw [collapseUnderscores.eq_2, if_pos rfl]
      rw [List.chain'_cons']
      refine ⟨?_, ih⟩
      intro b hb
      rw [collapseUnderscores_head] at hb
      have := dropWhile_head_false rest b hb
      simp only [decide_eq_false_iff_not] at this
      exact fun hc => this hc.2
  | case3 d rest hd ih =>
      rw [collapseUnderscores.eq_2, if_neg hd]
      rw [List.chain'_cons']
      refine ⟨?_, ih⟩
      intro b hb
      exact fun hc => hd hc.1

/-- All-underscore tails make the last element an underscore. -/
theorem all_underscore_getLast :
    ∀ (rest : List Char), (∀ x ∈ rest, x = '_') → ('_' :: rest).getLast? = some '_' := by
  intro rest
  induction rest with
  | nil => intro _; rfl
  | cons r rs ih =>
      intro h
      rw [List.getLast?_cons_cons]
      have hr : r = '_' := h r (by simp)
      subst hr
      exact ih (fun x hx => h x (List.mem_cons_of_mem _ hx))

/-- `collapseUnderscores` keeps a non-underscore last element
non-underscore. -/
theorem collapseUnderscores_getLast (l : List Char) (hl : l.getLast? ≠ some '_') :
    (collapseUnderscores l).getLast? ≠ some '_' := by
  induction l using collapseUnderscores.induct with
  | case1 => simp [collapseUnderscores]
  | case2 rest ih =>
      rw [collapseUnderscores.eq_2, if_pos rfl]
      by_cases hdw : rest.dropWhile (fun x => x = '_') = []
      · exfalso
        apply hl
        apply all_underscore_getLast
        intro x hx
        have := List.dropWhile_eq_nil_iff.mp hdw x hx
        simpa using this
      · have hne : collapseUnderscores (rest.dropWhile (fun x => x = '_')) ≠ [] := by
          intro hc
          have hh := collapseUnderscores_head (rest.dropWhile (fun x => x = '_'))
          rw [hc] at hh
          obtain ⟨y, ys, hys⟩ := List.exists_cons_of_ne_nil hdw
          rw [hys] at hh
          simp at hh
        have hrest : rest ≠ [] := by
          intro hc
          rw [hc] at hdw
          simp at hdw
        have hlast : (rest.dropWhile (fun x => x = '_')).getLast? ≠ some '_' := by
          rw [dropWhile_getLast_of_ne_nil rest hdw]
          intro hc
          apply hl
          cases rest with
          | nil => exact absurd rfl hrest
          | cons r rs => rw [List.getLast?_cons_cons]; exact hc
        have hih := ih hlast
        obtain ⟨y, ys, hys⟩ := List.exists_cons_of_ne_nil hne
        rw [hys] at hih ⊢
        rw [List.getLast?_cons_cons]
        exact hih
  | case3 d rest hd ih =>
      rw [collapseUnderscores.eq_2, if_neg hd]
      cases hcr : collapseUnderscores rest with
      | nil =>
          simp only [List.getLast?_singleton]
          intro hc
          exact hd (by injection hc)
      | cons y ys =>
          rw [List.getLast?_cons_cons]
          have hlast : rest.getLast? ≠ some '_' := by
            intro hc
            apply hl
            cases rest with
            | nil => simp at hc
            | cons r rs => rw [List.getLast?_cons_cons]; exact hc
          have hih := ih hlast
          rw [hcr] at hih
          exact hih

/-- The head of `trimUnderscores` is never an underscore. -/
theorem trimUnderscores_head (l : List Char) :
    (trimUnderscores l).head? ≠ some '_' := by
  unfold trimUnderscores
  rw [List.head?_reverse]
  cases hz : ((l.dropWhile (fun c => c = '_')).reverse.dropWhile (fun c => c = '_')) with
  | nil => simp
  | cons z zs =>
      rw [← hz]
      rw [dropWhile_getLast_of_ne_nil _ (by rw [hz]; simp)]
      rw [List.getLast?_reverse]
      intro hc
      have := dropWhile_head_false l '_' hc
      simp at this

/-- The last element of `trimUnderscores` is never an underscore. -/
theorem trimUnderscores_getLast (l : List Char) :
    (trimUnderscores l).getLast? ≠ some '_' := by
  unfold trimUnderscores
  rw [List.getLast?_reverse]
  intro hc
  have := dropWhile_head_false _ '_' hc
  simp at this

/-- `trimUnderscores` only emits characters of its input. -/
theorem trimUnderscores_subset (l : List Char) :
    ∀ c ∈ trimUnderscores l, c ∈ l := by
  intro c hc
  unfold trimUnderscores at hc
  rw [List.mem_reverse] at hc
  have h2 := List.dropWhile_subset _ hc
  rw [List.mem_reverse] at h2
  exact List.dropWhile_subset _ h2

/-- `toSnakeCase` is idempotent: its output contains only `[a-z0-9_]`,
never starts or ends with an underscore and has no underscore runs, and
each pipeline stage fixes such strings. -/
theorem toSnakeCase_idempotent (s : String) :
    toSnakeCase (toSnakeCase s) = toSnakeCase s := by
  by_cases hs : s = ""
  · rw [hs]
    rfl
  · by_cases hr : toSnakeCase s = ""
    · rw [hr]
      rfl
    · have hts : toSnakeCase s = String.mk (collapseUnderscores (trimUnderscores (lowerList
          ((replaceSepRuns (insertCapsBoundary (insertLowerUpper s.toList))).filter
            isSnakeKeep)))) := by
        rw [toSnakeCase, if_neg hs]
      set base := lowerList ((replaceSepRuns (insertCapsBoundary (insertLowerUpper
        s.toList))).filter isSnakeKeep) with hbase
      set l6 := trimUnderscores base with hl6
      set l7 := collapseUnderscores l6 with hl7
      have hgoodbase : ∀ c ∈ base, c.isUpper = false ∧ isSnakeSep c = false ∧
          isSnakeKeep c = true ∧ c.toLower = c := by
        intro c hc
        rw [hbase] at hc
        simp only [lowerList, List.mem_map, List.mem_filter] at hc
        obtain ⟨d, ⟨hd1, hd2⟩, rfl⟩ := hc
        exact snake_chars_good d hd2
      have hgood : ∀ c ∈ l7, c.isUpper = false ∧ isSnakeSep c = false ∧
          isSnakeKeep c = true ∧ c.toLower = c := by
        intro c hc
        exact hgoodbase c (trimUnderscores_subset base c (collapseUnderscores_subset l6 c hc))
      have hhead : l7.head? ≠ some '_' := by
        rw [hl7, collapseUnderscores_head]
        exact trimUnderscores_head base
      have hlast : l7.getLast? ≠ some '_' :=
        collapseUnderscores_getLast l6 (trimUnderscores_getLast base)
      have hchain := collapseUnderscores_chain l6
      rw [← hl7] at hchain
      rw [hts]
      rw [toSnakeCase]
      rw [if_neg (hts ▸ hr)]
      rw [show (String.mk l7).toList = l7 from rfl]
      rw [insertLowerUpper_id l7 (fun c hc => (hgood c hc).1)]
      rw [insertCapsBoundary_id l7 (fun c hc => (hgood c hc).1)]
      rw [replaceSepRuns_id l7 (fun c hc => (hgood c hc).2.1)]
      rw [List.filter_eq_self.mpr (fun c hc => (hgood c hc).2.2.1)]
      rw [show lowerList l7 = l7 from map_fix_id l7 (fun c hc => (hgood c hc).2.2.2)]
      rw [trimUnderscores_id l7 hhead hlast]
      rw [collapseUnderscores_id l7 hchain]

/-- Membership under JavaScript object assignment. -/
theorem objAssign_mem (acc : List (String × JVal)) (k : String) (v : JVal) :
    ∀ p ∈ objAssign acc k v, p ∈ acc ∨ p = (k, v) := by
  intro p hp
  unfold objAssign at hp
  split_ifs at hp with hany
  · simp only [List.mem_map] at hp
    obtain ⟨q, hq, hqe⟩ := hp
    by_cases hqk : q.1 = k
    · rw [if_pos hqk] at hqe
      exact Or.inr hqe.symm
    · rw [if_neg hqk] at hqe
      exact Or.inl (hqe ▸ hq)
  · rcases List.mem_append.mp hp with h | h
    · exact Or.inl h
    · exact Or.inr (by simpa using h)

/-- JavaScript object assignment keeps keys duplicate-free. -/
theorem objAssign_keys_nodup (acc : List (String × JVal)) (k : String) (v : JVal)
    (h : (acc.map (fun p => p.1)).Nodup) :
    ((objAssign acc k v).map (fun p => p.1)).Nodup := by
  unfold objAssign
  split_ifs with hany
  · have hmap : (acc.map (fun p => if p.1 = k then (k, v) else p)).map (fun p => p.1) =
        acc.map (fun p => p.1) := by
      rw [List.map_map]
      apply List.map_congr_left
      intro q hq
      by_cases hqk : q.1 = k
      · simp [hqk]
      · simp [hqk]
    rw [hmap]
    exact h
  · rw [List.map_append]
    rw [List.nodup_append]
    refine ⟨h, by simp, ?_⟩
    intro x hx hx2
    simp only [List.map_cons, List.map_nil, List.mem_singleton] at hx2
    subst hx2
    apply hany
    simp only [List.mem_map] at hx
    obtain ⟨q, hq, hqk⟩ := hx
    rw [List.any_eq_true]
    exact ⟨q, hq, by simp [hqk]⟩

/-- Everything produced by the entries loop is either carried from the
accumulator or is a transformed entry of the input. -/
theorem transformJsEntries_mem (ct : CaseKind) :
    ∀ (es acc : List (String × JVal)) (p : String × JVal),
      p ∈ transformJsEntries ct es acc →
      p ∈ acc ∨ ∃ q ∈ es, p = (keyTransformer ct q.1, transformObjectKeys ct q.2) := by
  intro es
  induction es with
  | nil =>
      intro acc p hp
      exact Or.inl (by simpa [transformJsEntries] using hp)
  | cons e rest ih =>
      intro acc p hp
      obtain ⟨k, v⟩ := e
      simp only [transformJsEntries] at hp
      rcases ih _ p hp with h | ⟨q, hq, hqe⟩
      · rcases objAssign_mem _ _ _ p h with h2 | h2
        · exact Or.inl h2
        · exact Or.inr ⟨(k, v), by simp, h2⟩
      · exact Or.inr ⟨q, List.mem_cons_of_mem _ hq, hqe⟩

/-- The entries loop keeps keys duplicate-free. -/
theorem transformJsEntries_keys_nodup (ct : CaseKind) :
    ∀ (es acc : List (String × JVal)), ((acc.map (fun p => p.1)).Nodup) →
      ((transformJsEntries ct es acc).map (fun p => p.1)).Nodup := by
  intro es
  induction es with
  | nil => intro acc h; simpa [transformJsEntries] using h
  | cons e rest ih =>
      intro acc h
      obtain ⟨k, v⟩ := e
      simp only [transformJsEntries]
      exact ih _ (objAssign_keys_nodup _ _ _ h)

/-- The entries loop is the identity (up to the accumulator) on entry
lists with duplicate-free keys whose keys and values the transformation
fixes. -/
theorem transformJsEntries_rebuild (ct : CaseKind) :
    ∀ (l acc : List (String × JVal)),
      (((acc ++ l).map (fun p => p.1)).Nodup) →
      (∀ p ∈ l, keyTransformer ct p.1 = p.1 ∧ transformObjectKeys ct p.2 = p.2) →
      transformJsEntries ct l acc = acc ++ l := by
  intro l
  induction l with
  | nil => intro acc h1 h2; simp [transformJsEntries]
  | cons e rest ih =>
      intro acc h1 h2
      obtain ⟨k, v⟩ := e
      have he := h2 (k, v) (by simp)
      simp only [transformJsEntries]
      rw [he.1, he.2]
      have hknot : acc.any (fun p => p.1 = k) = false := by
        rw [List.any_eq_false]
        intro q hq
        simp only [decide_eq_true_eq]
        intro hqk
        have hsplit : ((acc ++ (k, v) :: rest).map (fun p => p.1)) =
            acc.map (fun p => p.1) ++ k :: rest.map (fun p => p.1) := by
          simp
        rw [hsplit, List.nodup_append] at h1
        exact h1.2.2 (List.mem_map.mpr ⟨q, hq, hqk⟩) (by simp)
      have hassign : objAssign acc k v = acc ++ [(k, v)] := by
        unfold objAssign
        rw [if_neg (by simp [hknot])]
      rw [hassign]
      rw [ih (acc ++ [(k, v)]) (by rw [List.append_assoc]; exact h1)
        (fun p hp => h2 p (List.mem_cons_of_mem _ hp))]
      rw [List.append_assoc]
      rfl

/-- Elementwise array transformation as a `map`. -/
theorem transformJsList_eq_map (ct : CaseKind) :
    ∀ l : List JVal, transformJsList ct l = l.map (transformObjectKeys ct) := by
  intro l
  induction l with
  | nil => simp [transformJsList]
  | cons v rest ih => simp [transformJsList, ih]

/-- Snake-case key transformation is idempotent, by strong induction on
the size of the value. -/
theorem transform_snake_idem_bounded :
    ∀ (n : Nat) (v : JVal), sizeOf v ≤ n →
      transformObjectKeys CaseKind.snakeCase (transformObjectKeys CaseKind.snakeCase v) =
        transformObjectKeys CaseKind.snakeCase v := by
  intro n
  induction n with
  | zero =>
      intro v hv
      exact absurd hv (by cases v <;> simp)
  | succ n ih =>
      intro v hv
      cases v with
      | null => rfl
      | undef => rfl
      | bool b => rfl
      | num m => rfl
      | str s => rfl
      | date d => rfl
      | arr l =>
          simp only [transformObjectKeys]
          rw [transformJsList_eq_map, transformJsList_eq_map, List.map_map]
          congr 1
          apply List.map_congr_left
          intro x hx
          have hx1 : sizeOf x < sizeOf l := List.sizeOf_lt_of_mem hx
          have hx2 : sizeOf (JVal.arr l) = 1 + sizeOf l := by simp
          exact ih x (by omega)
      | obj entries =>
          simp only [transformObjectKeys]
          congr 1
          have hnodup := transformJsEntries_keys_nodup CaseKind.snakeCase entries [] (by simp)
          have hfix : ∀ p ∈ transformJsEntries CaseKind.snakeCase entries [],
              keyTransformer CaseKind.snakeCase p.1 = p.1 ∧
              transformObjectKeys CaseKind.snakeCase p.2 = p.2 := by
            intro p hp
            rcases transformJsEntries_mem CaseKind.snakeCase entries [] p hp with
              h | ⟨⟨qk, qv⟩, hq, rfl⟩
            · simp at h
            · constructor
              · simp only [keyTransformer]
                exact toSnakeCase_idempotent qk
              · have hq1 : sizeOf (qk, qv) < sizeOf entries := List.sizeOf_lt_of_mem hq
                have hq2 : sizeOf (qk, qv) = 1 + sizeOf qk + sizeOf qv := by simp
                have hq3 : sizeOf (JVal.obj entries) = 1 + sizeOf entries := by simp
                exact ih qv (by omega)
          have hre := transformJsEntries_rebuild CaseKind.snakeCase
            (transformJsEntries CaseKind.snakeCase entries []) [] (by simpa using hnodup) hfix
          simpa using hre

/-- C7 counterexample: camel-case key transformation is not idempotent,
because a first pass can create a new upper-case boundary that the second
pass lowers: the key first_name becomes firstName, then firstname. -/
theorem transformObjectKeys_camel_counterexample :
    transformObjectKeys CaseKind.camelCase
        (transformObjectKeys CaseKind.camelCase (JVal.obj [("first_name", JVal.null)])) ≠
      transformObjectKeys CaseKind.camelCase (JVal.obj [("first_name", JVal.null)]) := by
  have h1 : toCamelCase "first_name" = "firstName" := by
    simp [toCamelCase, sepRunsToSpace, isCamelSep, jsIsWhitespace, jsTrimList, lowerList,
      splitOnSpace, splitOnChar, splitOnCharAux, camelJoin, capitalizeFirst]
  have h2 : toCamelCase "firstName" = "firstname" := by
    simp [toCamelCase, sepRunsToSpace, isCamelSep, jsIsWhitespace, jsTrimList, lowerList,
      splitOnSpace, splitOnChar, splitOnCharAux, camelJoin, capitalizeFirst]
  have hin : transformObjectKeys CaseKind.camelCase (JVal.obj [("first_name", JVal.null)]) =
      JVal.obj [("firstName", JVal.null)] := by
    simp [transformObjectKeys, transformJsEntries, objAssign, keyTransformer, h1]
  have hout : transformObjectKeys CaseKind.camelCase (JVal.obj [("firstName", JVal.null)]) =
      JVal.obj [("firstname", JVal.null)] := by
    simp [transformObjectKeys, transformJsEntries, objAssign, keyTransformer, h2]
  rw [hin, hout]
  intro h
  exact absurd (congrArg jvalTopKeys h) (by simp [jvalTopKeys])

/-- C7 (amended): applying `transformObjectKeys` twice with the
snake_case format gives the same structure as applying it once, on every
nested value; the analogous statement for camelCase is false (see the
counterexample). -/
theorem transformObjectKeys_snake_idempotent (v : JVal) :
    transformObjectKeys CaseKind.snakeCase (transformObjectKeys CaseKind.snakeCase v) =
      transformObjectKeys CaseKind.snakeCase v :=
  transform_snake_idem_bounded (sizeOf v) v le_rfl

/-- C6 counterexample: a truthy non-string input is echoed raw in
`parseUsername`'s `full` field (the initializer `username || ''` runs
before the type guard), not replaced by the all-empty default. -/
theorem parseUsername_echo_counterexample :
    (parseUsername (JsInput.num 5)).full = JsInput.num 5 ∧
    JsInput.num 5 ≠ JsInput.str "" := by
  decide

/-- C6 (amended): every parser is total on arbitrary input — but the
all-empty default is exact only for `parseName`; `parseUsername`,
`parsePhoneNumber` and `parseAddress` seed their `full`/`original`
field with the raw `input || ''` before the type guard, so a falsy or
non-string input yields the default record except that a truthy
non-string is echoed unchanged in that field. -/
theorem parsers_soft_fail (v : JsInput) (cc : String) (h : v.isStr = false) :
    parseName v = emptyParsedName ∧
    parseUsername v = { emptyParsedName with full := jsEcho v } ∧
    parsePhoneNumber v cc = emptyParsedPhone (jsEcho v) ∧
    parseAddress v = emptyParsedAddress (jsEcho v) := by
  cases v <;> simp_all [parseName, parseUsername, parsePhoneNumber, parseAddress,
    JsInput.isStr]

/-- Witness for the soft-fail theorem at the number 5. -/
theorem parsers_soft_fail_witness :
    (JsInput.num 5).isStr = false ∧
    (parseName (JsInput.num 5) = emptyParsedName ∧
     parseUsername (JsInput.num 5) = { emptyParsedName with full := jsEcho (JsInput.num 5) } ∧
     parsePhoneNumber (JsInput.num 5) "1" = emptyParsedPhone (jsEcho (JsInput.num 5)) ∧
     parseAddress (JsInput.num 5) = emptyParsedAddress (jsEcho (JsInput.num 5))) :=
  ⟨by decide, parsers_soft_fail (JsInput.num 5) "1" (by decide)⟩

/-- C9 counterexample: a nonempty string with fewer than 7 digits does
not come back all-empty — `original` is the input itself (set before
the digit-count gate). -/
theorem parsePhoneNumber_short_counterexample :
    (parsePhoneNumber (JsInput.str "123") "1").original = JsInput.str "123" ∧
    (parsePhoneNumber (JsInput.str "123") "1").e164 = "" ∧
    (parsePhoneNumber (JsInput.str "123") "1").isValid = false ∧
    JsInput.str "123" ≠ JsInput.str "" := by
  decide

/-- C9 (amended): for a nonempty string whose digit count after
extension extraction is below 7 or above 15, `parsePhoneNumber` returns
a fully populated record with `isValid` false and every string field
empty except `original` (the raw input) and `extension` (the extracted
extension digits, when present). -/
theorem parsePhoneNumber_out_of_range (s cc : String) (hs : s ≠ "")
    (hlen : ((phoneExtProcess s.toList).2.filter Char.isDigit).length < 7 ∨
      15 < ((phoneExtProcess s.toList).2.filter Char.isDigit).length) :
    parsePhoneNumber (JsInput.str s) cc =
      { original := JsInput.str s, e164 := "", national := "", international := "",
        countryCode := "", areaCode := "", localNumber := "",
        extension := (phoneExtProcess s.toList).1, isValid := false } := by
  simp only [parsePhoneNumber, parsePhoneNumberStr]
  rw [if_neg hs, if_pos hlen]

/-- Witness for the out-of-range theorem on the three-digit input. -/
theorem parsePhoneNumber_out_of_range_witness :
    ("123" : String) ≠ "" ∧
    parsePhoneNumber (JsInput.str "123") "1" =
      { original := JsInput.str "123", e164 := "", national := "", international := "",
        countryCode := "", areaCode := "", localNumber := "",
        extension := (phoneExtProcess "123".toList).1, isValid := false } :=
  ⟨by decide, parsePhoneNumber_out_of_range "123" "1" (by decide) (Or.inl (by decide))⟩
